import Mathlib

/-!
Verification development for the opencode-vibe world-state aggregation and
resumable-streaming engine.

The development shallowly embeds the program units the properties concern:

* the decimal offset formatting of the resumable cursor stream
  (`String(n).padStart(10, "0")` and `Number.parseInt`) and the
  `catchUpEvents` / `tailEvents` / `resumeEvents` functions of
  `world/stream.ts`;
* the event router of `world/merged-stream.ts` (`routeEventToStore`,
  source availability filtering and stream merging) and the SSE event
  handler and reconnection loop of `world/sse.ts`;
* the cursor persistence of `world/cursor-store.ts`;
* the `WorldStore` state container, whose implementation file (`atoms.ts`)
  is not part of the sources at hand; it is modelled from the
  specification's data model and operation descriptions.

Machine integers do not overflow in the modelled ranges, so numbers are
embedded as `Nat` / `ℚ`.
-/

/-! ## Decimal strings: the embedding of number formatting and parsing

`world/stream.ts` renders offsets with `String(counter).padStart(10, "0")`
and reads saved offsets with `Number.parseInt(offset, 10)`.
-/

/-- Fuel-indexed decimal digit expansion, most significant digit first.
The fuel argument only bounds recursion depth; `natDigits` supplies enough. -/
def natDigitsAux : Nat → Nat → List Nat
  | 0, _ => []
  | fuel + 1, n => if n < 10 then [n] else natDigitsAux fuel (n / 10) ++ [n % 10]

/-- Decimal digits of `n`, most significant first: the digit list behind the
JavaScript conversion `String(n)` for a natural number. -/
def natDigits (n : Nat) : List Nat := natDigitsAux (n + 1) n

theorem natDigitsAux_fuel {f₁ f₂ n : Nat} (h₁ : n < f₁) (h₂ : n < f₂) :
    natDigitsAux f₁ n = natDigitsAux f₂ n := by
  induction f₁ generalizing f₂ n with
  | zero => omega
  | succ g ih =>
    obtain ⟨h, rfl⟩ : ∃ h, f₂ = h + 1 := ⟨f₂ - 1, by omega⟩
    by_cases hn : n < 10
    · simp [natDigitsAux, hn]
    · have hd : n / 10 < n := Nat.div_lt_self (by omega) (by omega)
      simp only [natDigitsAux, hn, if_false]
      rw [@ih h (n / 10) (by omega) (by omega)]

theorem natDigits_eq (n : Nat) :
    natDigits n = if n < 10 then [n] else natDigits (n / 10) ++ [n % 10] := by
  by_cases hn : n < 10
  · simp [natDigits, natDigitsAux, hn]
  · have hd : n / 10 < n := Nat.div_lt_self (by omega) (by omega)
    have h1 : natDigits n = natDigitsAux n (n / 10) ++ [n % 10] := by
      simp [natDigits, natDigitsAux, hn]
    rw [h1, if_neg hn]
    congr 1
    exact @natDigitsAux_fuel n (n / 10 + 1) (n / 10) (by omega) (by omega)

theorem natDigits_length_le {k n : Nat} (h : n < 10 ^ (k + 1)) :
    (natDigits n).length ≤ k + 1 := by
  induction n using Nat.strong_induction_on generalizing k with
  | _ n ih =>
    rw [natDigits_eq]
    by_cases hn : n < 10
    · simp [hn]
    · have hd : n / 10 < n := Nat.div_lt_self (by omega) (by omega)
      have hk : 0 < k := by
        by_contra hk0
        have : k = 0 := by omega
        subst this
        simp [pow_succ, pow_zero] at h
        omega
      obtain ⟨j, rfl⟩ : ∃ j, k = j + 1 := ⟨k - 1, by omega⟩
      have hb : n / 10 < 10 ^ (j + 1) := by
        rw [Nat.div_lt_iff_lt_mul (by omega)]
        calc n < 10 ^ (j + 1 + 1) := h
        _ = 10 ^ (j + 1) * 10 := by ring
      have := ih (n / 10) hd hb
      simp only [hn, if_false, List.length_append, List.length_cons,
        List.length_nil]
      omega

theorem natDigits_len_pos (n : Nat) : 0 < (natDigits n).length := by
  rw [natDigits_eq]
  by_cases hn : n < 10 <;> simp [hn]

/-- Fixed-width decimal digit window of `n`: digit at place `10 ^ (k - 1)`
down to place `10 ^ 0`, most significant first. -/
def padDigits : Nat → Nat → List Nat
  | 0, _ => []
  | k + 1, n => n / 10 ^ k % 10 :: padDigits k n

theorem padDigits_length (k n : Nat) : (padDigits k n).length = k := by
  induction k generalizing n with
  | zero => rfl
  | succ j ih => simp [padDigits, ih]

theorem padDigits_step (k n : Nat) :
    padDigits (k + 1) n = padDigits k (n / 10) ++ [n % 10] := by
  induction k generalizing n with
  | zero => simp [padDigits]
  | succ j ih =>
    have hdd : n / 10 / 10 ^ j = n / 10 ^ (j + 1) := by
      rw [Nat.div_div_eq_div_mul]
      congr 1
      rw [pow_succ, mul_comm]
    have hL : padDigits (j + 1 + 1) n =
        n / 10 ^ (j + 1) % 10 :: padDigits (j + 1) n := rfl
    have hR : padDigits (j + 1) (n / 10) =
        n / 10 / 10 ^ j % 10 :: padDigits j (n / 10) := rfl
    rw [hL, hR, ih n, hdd, List.cons_append]

theorem padDigits_mod (k n : Nat) : padDigits k (n % 10 ^ k) = padDigits k n := by
  induction k generalizing n with
  | zero => rfl
  | succ j ih =>
    simp only [padDigits]
    congr 1
    · rw [pow_succ, Nat.mod_mul_right_div_self, Nat.mod_mod_of_dvd _ (dvd_refl 10)]
    · calc padDigits j (n % 10 ^ (j + 1))
          = padDigits j (n % 10 ^ (j + 1) % 10 ^ j) := (ih _).symm
        _ = padDigits j (n % 10 ^ j) := by
            rw [Nat.mod_mod_of_dvd _ (pow_dvd_pow 10 (by omega))]
        _ = padDigits j n := ih n

theorem padDigits_top {k n : Nat} (hlo : 10 ^ k ≤ n) (hhi : n < 10 ^ (k + 1)) :
    padDigits (k + 1) n = natDigits n := by
  induction k generalizing n with
  | zero =>
    simp only [pow_zero] at hlo
    simp only [zero_add, pow_one] at hhi
    have h2 : padDigits 1 n = [n / 10 ^ 0 % 10] := rfl
    rw [natDigits_eq, if_pos hhi, h2]
    simp [Nat.mod_eq_of_lt hhi]
  | succ j ih =>
    have hn : ¬ n < 10 := by
      have : (10 : Nat) ≤ 10 ^ (j + 1) := by
        calc (10 : Nat) = 10 ^ 1 := (pow_one 10).symm
        _ ≤ 10 ^ (j + 1) := Nat.pow_le_pow_right (by omega) (by omega)
      omega
    rw [natDigits_eq, if_neg hn, padDigits_step]
    congr 1
    apply ih
    · rw [Nat.le_div_iff_mul_le (by omega), ← pow_succ]
      exact hlo
    · rw [Nat.div_lt_iff_lt_mul (by omega), ← pow_succ]
      exact hhi

theorem padDigits_eq_pad {j n : Nat} (h : n < 10 ^ (j + 1)) :
    padDigits (j + 1) n =
      List.replicate (j + 1 - (natDigits n).length) 0 ++ natDigits n := by
  induction j generalizing n with
  | zero =>
    simp only [zero_add, pow_one] at h
    have h2 : padDigits 1 n = [n / 10 ^ 0 % 10] := rfl
    rw [natDigits_eq, if_pos h, h2]
    simp [Nat.mod_eq_of_lt h]
  | succ i ih =>
    by_cases hc : n < 10 ^ (i + 1)
    · have hlen : (natDigits n).length ≤ i + 1 := natDigits_length_le hc
      have hdiv : n / 10 ^ (i + 1) = 0 := Nat.div_eq_of_lt hc
      have hstep : padDigits (i + 1 + 1) n =
          n / 10 ^ (i + 1) % 10 :: padDigits (i + 1) n := rfl
      rw [hstep, hdiv, Nat.zero_mod, ih hc]
      have : i + 1 + 1 - (natDigits n).length =
          (i + 1 - (natDigits n).length) + 1 := by omega
      rw [this, List.replicate_succ]
      simp
    · have hlo : 10 ^ (i + 1) ≤ n := by omega
      rw [padDigits_top hlo h]
      have hlen : (natDigits n).length = i + 1 + 1 := by
        have := padDigits_length (i + 1 + 1) n
        rw [padDigits_top hlo h] at this
        omega
      rw [hlen]
      simp

/-- The embedding of the JavaScript conversion `String(n)` for a natural
number: its decimal digits rendered as characters. -/
def natStr (n : Nat) : String := String.mk ((natDigits n).map Nat.digitChar)

/-- The embedding of `s.padStart(10, "0")` from `world/stream.ts`. -/
def padStart10 (s : String) : String :=
  if s.length < 10 then String.mk (List.replicate (10 - s.length) '0') ++ s
  else s

/-- Offset rendering of `world/stream.ts`:
`String(offsetCounter).padStart(10, "0")`. -/
def offsetString (n : Nat) : String := padStart10 (natStr n)

/-- The embedding of `Number.parseInt(s, 10)` on all-digit strings: fold the
decimal digits most significant first. -/
def parseDecimal (s : String) : Nat :=
  s.data.foldl (fun acc c => acc * 10 + (c.toNat - 48)) 0

theorem digitChar_toNat {d : Nat} (h : d < 10) :
    (Nat.digitChar d).toNat - 48 = d := by
  have : ∀ e, e < 10 → (Nat.digitChar e).toNat - 48 = e := by decide
  exact this d h

theorem digitChar_lt {a b : Nat} (ha : a < 10) (hb : b < 10) (hab : a < b) :
    Nat.digitChar a < Nat.digitChar b := by
  have : ∀ x, x < 10 → ∀ y, y < 10 → x < y → Nat.digitChar x < Nat.digitChar y := by
    decide
  exact this a ha b hb hab

theorem natDigits_lt_ten {n : Nat} : ∀ d ∈ natDigits n, d < 10 := by
  induction n using Nat.strong_induction_on with
  | _ n ih =>
    rw [natDigits_eq]
    by_cases hn : n < 10
    · simp [hn]
    · have hd : n / 10 < n := Nat.div_lt_self (by omega) (by omega)
      simp only [hn, if_false, List.mem_append, List.mem_singleton]
      intro d hd'
      rcases hd' with h | h
      · exact ih (n / 10) hd d h
      · subst h
        exact Nat.mod_lt _ (by omega)

theorem foldl_digits_val (n : Nat) :
    ∀ acc : Nat,
      ((natDigits n).map Nat.digitChar).foldl
          (fun acc c => acc * 10 + (c.toNat - 48)) acc =
        acc * 10 ^ (natDigits n).length + n := by
  induction n using Nat.strong_induction_on with
  | _ n ih =>
    intro acc
    by_cases hn : n < 10
    · rw [natDigits_eq, if_pos hn]
      simp [digitChar_toNat hn]
    · have hd : n / 10 < n := Nat.div_lt_self (by omega) (by omega)
      rw [natDigits_eq, if_neg hn]
      rw [List.map_append, List.foldl_append]
      rw [ih (n / 10) hd acc]
      have hm : n % 10 < 10 := Nat.mod_lt _ (by omega)
      simp only [List.map_cons, List.map_nil, List.foldl_cons, List.foldl_nil,
        List.length_append, List.length_cons, List.length_nil]
      rw [digitChar_toNat hm]
      have hsplit : n / 10 * 10 + n % 10 = n := by omega
      calc (acc * 10 ^ (natDigits (n / 10)).length + n / 10) * 10 + n % 10
          = acc * (10 ^ (natDigits (n / 10)).length * 10) + (n / 10 * 10 + n % 10) := by
            ring
        _ = acc * 10 ^ ((natDigits (n / 10)).length + 1) + n := by
            rw [hsplit, pow_succ]

theorem parseDecimal_natStr (n : Nat) : parseDecimal (natStr n) = n := by
  have := foldl_digits_val n 0
  simpa [parseDecimal, natStr] using this

theorem parseDecimal_offsetString (n : Nat) :
    parseDecimal (offsetString n) = n := by
  by_cases hlen : (natStr n).length < 10
  · have hdata : (offsetString n).data =
        List.replicate (10 - (natStr n).length) '0' ++ (natStr n).data := by
      simp [offsetString, padStart10, hlen, String.data_append]
    have hzero : ∀ k acc, acc = 0 →
        (List.replicate k '0').foldl (fun acc c => acc * 10 + (c.toNat - 48)) acc
          = 0 := by
      intro k
      induction k with
      | zero => intro acc h; simpa using h
      | succ j ihj =>
        intro acc h
        rw [List.replicate_succ, List.foldl_cons]
        exact ihj _ (by subst h; rfl)
    unfold parseDecimal
    rw [hdata, List.foldl_append, hzero _ 0 rfl]
    exact parseDecimal_natStr n
  · have : offsetString n = natStr n := by
      simp [offsetString, padStart10, hlen]
    rw [this]
    exact parseDecimal_natStr n

theorem offsetString_inj {m n : Nat} (h : offsetString m = offsetString n) :
    m = n := by
  have := parseDecimal_offsetString m
  rw [h, parseDecimal_offsetString n] at this
  omega

theorem offsetString_eq_padDigits {n : Nat} (h : n < 10 ^ 10) :
    offsetString n = String.mk ((padDigits 10 n).map Nat.digitChar) := by
  have hpad : padDigits 10 n =
      List.replicate (10 - (natDigits n).length) 0 ++ natDigits n := by
    have := padDigits_eq_pad (j := 9) (n := n) (by simpa using h)
    simpa using this
  have hlen10 : (natDigits n).length ≤ 10 := by
    have := natDigits_length_le (k := 9) (n := n) (by simpa using h)
    simpa using this
  rw [hpad, List.map_append, List.map_replicate]
  show padStart10 (String.mk ((natDigits n).map Nat.digitChar)) = _
  by_cases hl : (natDigits n).length < 10
  · have hcond : (String.mk ((natDigits n).map Nat.digitChar)).length < 10 := by
      simpa [String.length_mk, List.length_map] using hl
    have hlen : (String.mk ((natDigits n).map Nat.digitChar)).length =
        (natDigits n).length := by
      simp [String.length_mk, List.length_map]
    rw [padStart10, if_pos hcond, hlen]
    rfl
  · have hl10 : (natDigits n).length = 10 := by omega
    have hcond : ¬ (String.mk ((natDigits n).map Nat.digitChar)).length < 10 := by
      simpa [String.length_mk, List.length_map] using hl
    rw [padStart10, if_neg hcond, hl10]
    simp

theorem offsetString_length {n : Nat} (h : n < 10 ^ 10) :
    (offsetString n).length = 10 := by
  rw [offsetString_eq_padDigits h]
  simp [String.length_mk, List.length_map, padDigits_length]

/-- Core lexicographic monotonicity on fixed-width digit blocks. -/
theorem padDigits_lex {k m n : Nat} (hmn : m < n) (hn : n < 10 ^ k) :
    List.Lex (fun a b => a < b) ((padDigits k m).map Nat.digitChar)
      ((padDigits k n).map Nat.digitChar) := by
  induction k generalizing m n with
  | zero =>
    simp only [pow_zero] at hn
    omega
  | succ j ih =>
    have hm : m < 10 ^ (j + 1) := by omega
    have hdm : m / 10 ^ j < 10 := by
      apply (Nat.div_lt_iff_lt_mul (Nat.pos_pow_of_pos j (by omega))).mpr
      calc m < 10 ^ (j + 1) := hm
      _ = 10 * 10 ^ j := by ring
    have hdn : n / 10 ^ j < 10 := by
      apply (Nat.div_lt_iff_lt_mul (Nat.pos_pow_of_pos j (by omega))).mpr
      calc n < 10 ^ (j + 1) := hn
      _ = 10 * 10 ^ j := by ring
    have hmod_m : m / 10 ^ j % 10 = m / 10 ^ j := Nat.mod_eq_of_lt hdm
    have hmod_n : n / 10 ^ j % 10 = n / 10 ^ j := Nat.mod_eq_of_lt hdn
    simp only [padDigits, List.map_cons, hmod_m, hmod_n]
    rcases Nat.lt_or_ge (m / 10 ^ j) (n / 10 ^ j) with hlt | hge
    · exact List.Lex.rel (digitChar_lt hdm hdn hlt)
    · have hle : m / 10 ^ j ≤ n / 10 ^ j := Nat.div_le_div_right (by omega)
      have heq : m / 10 ^ j = n / 10 ^ j := by omega
      rw [heq]
      apply List.Lex.cons
      have hmodlt : m % 10 ^ j < n % 10 ^ j := by
        have em := Nat.div_add_mod m (10 ^ j)
        have en := Nat.div_add_mod n (10 ^ j)
        have : 10 ^ j * (m / 10 ^ j) = 10 ^ j * (n / 10 ^ j) := by rw [heq]
        omega
      have hb : n % 10 ^ j < 10 ^ j := Nat.mod_lt _ (Nat.pos_pow_of_pos j (by omega))
      have := ih hmodlt hb
      rwa [padDigits_mod, padDigits_mod] at this

/-- String-level strict monotonicity of `offsetString` below the 10-digit
boundary: lexicographic order agrees with numeric order there. -/
theorem offsetString_lt {m n : Nat} (hmn : m < n) (hn : n < 10 ^ 10) :
    offsetString m < offsetString n := by
  rw [String.lt_iff_toList_lt]
  have hm : m < 10 ^ 10 := by omega
  have e1 : (offsetString m).toList = (padDigits 10 m).map Nat.digitChar := by
    rw [offsetString_eq_padDigits hm]
    rfl
  have e2 : (offsetString n).toList = (padDigits 10 n).map Nat.digitChar := by
    rw [offsetString_eq_padDigits hn]
    rfl
  rw [e1, e2]
  exact padDigits_lex hmn hn

/-! ## Domain types

From `packages/core/src/types/domain.ts` (the richer variant that includes
`sessionID` on parts). Optional fields become `Option`.
-/

namespace World

structure TimeInfo where
  created : Nat
  updated : Nat
  archived : Option Nat := none
deriving DecidableEq, Repr

structure Session where
  id : String
  title : String
  directory : String
  parentID : Option String := none
  time : TimeInfo
deriving DecidableEq, Repr

structure MsgTime where
  created : Nat
  completed : Option Nat := none
deriving DecidableEq, Repr

structure CacheTokens where
  read : Nat
  write : Nat
deriving DecidableEq, Repr

structure Tokens where
  input : Nat
  output : Nat
  reasoning : Option Nat := none
  cache : Option CacheTokens := none
deriving DecidableEq, Repr

structure ModelLimits where
  context : Nat
  output : Nat
deriving DecidableEq, Repr

structure ModelInfo where
  name : String
  limits : Option ModelLimits := none
deriving DecidableEq, Repr

structure Message where
  id : String
  sessionID : String
  role : String
  parentID : Option String := none
  time : Option MsgTime := none
  finish : Option String := none
  tokens : Option Tokens := none
  agent : Option String := none
  model : Option ModelInfo := none
deriving DecidableEq, Repr

structure PartState where
  status : Option String := none
deriving DecidableEq, Repr

structure Part where
  id : String
  sessionID : String
  messageID : String
  type : String
  content : Option String := none
  text : Option String := none
  tool : Option String := none
  state : Option PartState := none
deriving DecidableEq, Repr

/-- Modelled from the spec: the internal session status set of
`types/events.ts` (not among the sources) is the set `running`, `completed`,
`idle` named in section 6 of the specification. -/
inductive SessionStatus where
  | running
  | completed
  | idle
deriving DecidableEq, Repr

/-- Modelled from the spec: `normalizeBackendStatus` of `types/sessions.ts`
is not among the sources; the spec requires each backend-specific wire status
string to be normalized into the internal set before use. -/
def normalizeBackendStatus (s : String) : SessionStatus :=
  if s = "running" then .running
  else if s = "idle" then .idle
  else .completed

/-! ## Resumable cursor stream protocol

The embedding of `catchUpEvents` / `tailEvents` / `resumeEvents` from
`world/stream.ts`. The deterministic environment (`StreamEnv`) fixes what the
call observes: the discovered servers with their `session.list()` /
`session.status()` results, the live `GlobalEvent`s delivered by
`MultiServerSSE.onEvent`, and the clock.
-/

/-- Payload of a world event: the synthesized catch-up payloads or the
pass-through properties of a live event. -/
inductive WorldPayload where
  | catchUpSession (id : String) (projectKey : String)
  | catchUpStatus (id : String) (status : SessionStatus)
  | live (props : String)
deriving DecidableEq, Repr

/-- The `WorldEvent` shape of `world/events.ts`: type, offset, timestamp,
upToDate flag and payload. -/
structure WorldEvent where
  type : String
  offset : String
  timestamp : Nat
  upToDate : Bool
  payload : WorldPayload
deriving DecidableEq, Repr

/-- The `CatchUpResponse` shape of `world/stream.ts`. -/
structure CatchUpResponse where
  events : List WorldEvent
  nextOffset : Option String
  upToDate : Bool
deriving DecidableEq, Repr

/-- One discovered server as `catchUpEvents` sees it: directory plus the
results of `client.session.list()` and `client.session.status()` (the latter
as backend-status strings, normalized on use). -/
structure ServerData where
  directory : String
  sessions : List Session
  statusEntries : List (String × String)
deriving DecidableEq, Repr

/-- A live event delivered by `MultiServerSSE.onEvent`:
`event.payload = (type, properties)`; properties are passed through opaquely. -/
structure GlobalEvent where
  type : String
  props : String
deriving DecidableEq, Repr

/-- Deterministic environment of one stream call. -/
structure StreamEnv where
  servers : List ServerData
  live : List GlobalEvent
  now : Nat
deriving DecidableEq, Repr

/-- Embedding of `offsetCounter = offset ? Number.parseInt(offset, 10) : 0`. -/
def parseOffset : Option String → Nat
  | none => 0
  | some s => parseDecimal s

/-- Session loop of `catchUpEvents`: one `session.created` event per session,
incrementing the shared counter before each push. -/
def sessionEvents (directory : String) (now : Nat) :
    List Session → Nat → List WorldEvent × Nat
  | [], c => ([], c)
  | s :: rest, c =>
    let e : WorldEvent :=
      { type := "session.created", offset := offsetString (c + 1),
        timestamp := now, upToDate := false,
        payload := .catchUpSession s.id directory }
    let p := sessionEvents directory now rest (c + 1)
    (e :: p.1, p.2)

/-- Status loop of `catchUpEvents`: one `session.updated` event per status
entry, normalizing the backend status. -/
def statusEvents (now : Nat) :
    List (String × String) → Nat → List WorldEvent × Nat
  | [], c => ([], c)
  | en :: rest, c =>
    let e : WorldEvent :=
      { type := "session.updated", offset := offsetString (c + 1),
        timestamp := now, upToDate := false,
        payload := .catchUpStatus en.1 (normalizeBackendStatus en.2) }
    let p := statusEvents now rest (c + 1)
    (e :: p.1, p.2)

/-- Server loop of `catchUpEvents`: sessions then status entries per server,
threading one counter. -/
def serversEvents (now : Nat) : List ServerData → Nat → List WorldEvent × Nat
  | [], c => ([], c)
  | sv :: rest, c =>
    let p1 := sessionEvents sv.directory now sv.sessions c
    let p2 := statusEvents now sv.statusEntries p1.2
    let p3 := serversEvents now rest p2.2
    (p1.1 ++ p2.1 ++ p3.1, p3.2)

/-- Rewrite of the last batch element with `upToDate := true`
(`events[events.length - 1] = { ...lastEvent, upToDate: true }`). -/
def markLastUpToDate (events : List WorldEvent) : List WorldEvent :=
  match events.getLast? with
  | none => events
  | some last => events.dropLast ++ [{ last with upToDate := true }]

/-- The `catchUpEvents` function of `world/stream.ts`: bounded synthesized history. -/
def catchUpEvents (env : StreamEnv) (offset : Option String) : CatchUpResponse :=
  if env.servers.length = 0 then
    { events := [], nextOffset := none, upToDate := true }
  else
    let evts := markLastUpToDate (serversEvents env.now env.servers (parseOffset offset)).1
    { events := evts,
      nextOffset := match evts.getLast? with
        | some e => some e.offset
        | none => none,
      upToDate := true }

/-- Live-event type filter of `tailEvents`: keep only `session.*`,
`message.*` and `part.*` events. -/
def isRecognizedType (t : String) : Bool :=
  t.startsWith "session." || t.startsWith "message." || t.startsWith "part."

/-- Subscriber loop of `tailEvents`: recognized live events get the next
counter value and `upToDate := false`. -/
def tailEventsFrom (now : Nat) : List GlobalEvent → Nat → List WorldEvent
  | [], _ => []
  | g :: rest, c =>
    if isRecognizedType g.type then
      { type := g.type, offset := offsetString (c + 1), timestamp := now,
        upToDate := false, payload := .live g.props } ::
        tailEventsFrom now rest (c + 1)
    else tailEventsFrom now rest c

/-- The `tailEvents` function of `world/stream.ts`: unbounded live sequence (embedded over
the environment's finite live-event list). -/
def tailEvents (env : StreamEnv) (offset : Option String) : List WorldEvent :=
  tailEventsFrom env.now env.live (parseOffset offset)

/-- Scan state of the `Stream.scan` stage of `resumeEvents`. -/
structure ScanState where
  lastOffset : Option String
  event : Option WorldEvent
deriving DecidableEq, Repr

/-- JavaScript `a || b` on (non-empty-string) optional offsets, as used in
`tailEvents(response.nextOffset || savedOffset)`. -/
def jsOrOffset : Option String → Option String → Option String
  | some s, _ => some s
  | none, b => b

/-- The `resumeEvents` function of `world/stream.ts`: catch-up concatenated with the live
tail started at the catch-up's next offset, then the offset-tracking
`Stream.scan`, the projection back to events and the null filter. -/
def resumeEvents (env : StreamEnv) (savedOffset : Option String) :
    List WorldEvent :=
  let catchUpStream := (catchUpEvents env savedOffset).events
  let liveStream :=
    tailEvents env (jsOrOffset (catchUpEvents env savedOffset).nextOffset savedOffset)
  let concatenated := catchUpStream ++ liveStream
  let scanned := concatenated.scanl
    (fun (_ : ScanState) (e : WorldEvent) =>
      ({ lastOffset := some e.offset, event := some e } : ScanState))
    ({ lastOffset := savedOffset, event := none } : ScanState)
  (scanned.map fun st => st.event).filterMap id

end World

namespace World

/-- Projection of a world event to its content (type and payload): the data
that identifies an entry of the underlying log, independent of the offset
and flag assignment. -/
def eventContent (e : WorldEvent) : String × WorldPayload := (e.type, e.payload)

/-- Total number of catch-up log entries over a server list. -/
def catchUpTotal (svs : List ServerData) : Nat :=
  (svs.map fun sv => sv.sessions.length + sv.statusEntries.length).sum

/-- Number of events a catch-up call over `env` synthesizes. -/
def catchUpCount (env : StreamEnv) : Nat :=
  if env.servers.length = 0 then 0 else catchUpTotal env.servers

/-- Number of live events the tail emits over `env`. -/
def liveCount (env : StreamEnv) : Nat :=
  (env.live.filter fun g => isRecognizedType g.type).length

/-- Expected catch-up content sequence, stated after the spec: one
`session.created` entry per session of each discovered server, then one
`session.updated` entry per status-map entry, server by server. -/
def catchUpContentSpec (env : StreamEnv) : List (String × WorldPayload) :=
  if env.servers.length = 0 then []
  else
    env.servers.flatMap fun sv =>
      (sv.sessions.map fun s =>
        (("session.created" : String), WorldPayload.catchUpSession s.id sv.directory)) ++
      (sv.statusEntries.map fun en =>
        (("session.updated" : String),
          WorldPayload.catchUpStatus en.1 (normalizeBackendStatus en.2)))

/-- Expected live content sequence, stated after the spec: every recognized
live event of the merged source, in arrival order, passed through. -/
def liveContentSpec (env : StreamEnv) : List (String × WorldPayload) :=
  (env.live.filter fun g => isRecognizedType g.type).map fun g =>
    (g.type, WorldPayload.live g.props)


theorem sessionEvents_snd (d : String) (now : Nat) (ss : List Session) (c : Nat) :
    (sessionEvents d now ss c).2 = c + ss.length := by
  induction ss generalizing c with
  | nil => simp [sessionEvents]
  | cons s rest ih =>
    simp only [sessionEvents, ih, List.length_cons]
    omega

theorem sessionEvents_offsets (d : String) (now : Nat) (ss : List Session) (c : Nat) :
    (sessionEvents d now ss c).1.map (fun e => e.offset) =
      (List.range' (c + 1) ss.length).map offsetString := by
  induction ss generalizing c with
  | nil => simp [sessionEvents]
  | cons s rest ih =>
    simp only [sessionEvents, List.map_cons, List.length_cons, List.range']
    rw [ih]

theorem sessionEvents_content (d : String) (now : Nat) (ss : List Session) (c : Nat) :
    (sessionEvents d now ss c).1.map eventContent =
      ss.map fun s =>
        (("session.created" : String), WorldPayload.catchUpSession s.id d) := by
  induction ss generalizing c with
  | nil => simp [sessionEvents]
  | cons s rest ih =>
    simp only [sessionEvents, List.map_cons]
    rw [ih]
    rfl

theorem sessionEvents_flag (d : String) (now : Nat) (ss : List Session) (c : Nat) :
    ∀ e ∈ (sessionEvents d now ss c).1, e.upToDate = false := by
  induction ss generalizing c with
  | nil => simp [sessionEvents]
  | cons s rest ih =>
    simp only [sessionEvents, List.mem_cons]
    rintro e (rfl | he)
    · rfl
    · exact ih (c + 1) e he

theorem statusEvents_snd (now : Nat) (es : List (String × String)) (c : Nat) :
    (statusEvents now es c).2 = c + es.length := by
  induction es generalizing c with
  | nil => simp [statusEvents]
  | cons en rest ih =>
    simp only [statusEvents, ih, List.length_cons]
    omega

theorem statusEvents_offsets (now : Nat) (es : List (String × String)) (c : Nat) :
    (statusEvents now es c).1.map (fun e => e.offset) =
      (List.range' (c + 1) es.length).map offsetString := by
  induction es generalizing c with
  | nil => simp [statusEvents]
  | cons en rest ih =>
    simp only [statusEvents, List.map_cons, List.length_cons, List.range']
    rw [ih]

theorem statusEvents_content (now : Nat) (es : List (String × String)) (c : Nat) :
    (statusEvents now es c).1.map eventContent =
      es.map fun en =>
        (("session.updated" : String),
          WorldPayload.catchUpStatus en.1 (normalizeBackendStatus en.2)) := by
  induction es generalizing c with
  | nil => simp [statusEvents]
  | cons en rest ih =>
    simp only [statusEvents, List.map_cons]
    rw [ih]
    rfl

theorem statusEvents_flag (now : Nat) (es : List (String × String)) (c : Nat) :
    ∀ e ∈ (statusEvents now es c).1, e.upToDate = false := by
  induction es generalizing c with
  | nil => simp [statusEvents]
  | cons en rest ih =>
    simp only [statusEvents, List.mem_cons]
    rintro e (rfl | he)
    · rfl
    · exact ih (c + 1) e he

theorem serversEvents_snd (now : Nat) (svs : List ServerData) (c : Nat) :
    (serversEvents now svs c).2 = c + catchUpTotal svs := by
  induction svs generalizing c with
  | nil => simp [serversEvents, catchUpTotal]
  | cons sv rest ih =>
    simp only [serversEvents, ih, sessionEvents_snd, statusEvents_snd,
      catchUpTotal, List.map_cons, List.sum_cons]
    omega

theorem range'_split3 (c L1 L2 T : Nat) :
    List.range' (c + 1) (L1 + L2 + T) =
      List.range' (c + 1) L1 ++ List.range' (c + L1 + 1) L2 ++
        List.range' (c + L1 + L2 + 1) T := by
  have hA := List.range'_append (c + 1) L1 L2 1
  have e1 : c + 1 + 1 * L1 = c + L1 + 1 := by omega
  rw [e1, Nat.add_comm L2 L1] at hA
  have hB := List.range'_append (c + 1) (L1 + L2) T 1
  have e2 : c + 1 + 1 * (L1 + L2) = c + L1 + L2 + 1 := by omega
  rw [e2, Nat.add_comm T (L1 + L2)] at hB
  rw [← hB, ← hA]

theorem serversEvents_offsets (now : Nat) (svs : List ServerData) (c : Nat) :
    (serversEvents now svs c).1.map (fun e => e.offset) =
      (List.range' (c + 1) (catchUpTotal svs)).map offsetString := by
  induction svs generalizing c with
  | nil => simp [serversEvents, catchUpTotal]
  | cons sv rest ih =>
    have htot : catchUpTotal (sv :: rest) =
        sv.sessions.length + sv.statusEntries.length + catchUpTotal rest := by
      simp only [catchUpTotal, List.map_cons, List.sum_cons]
    simp only [serversEvents, List.map_append, sessionEvents_snd, statusEvents_snd]
    rw [sessionEvents_offsets, statusEvents_offsets, ih, htot, range'_split3]
    simp [List.map_append]

theorem serversEvents_content (now : Nat) (svs : List ServerData) (c : Nat) :
    (serversEvents now svs c).1.map eventContent =
      svs.flatMap fun sv =>
        (sv.sessions.map fun s =>
          (("session.created" : String), WorldPayload.catchUpSession s.id sv.directory)) ++
        (sv.statusEntries.map fun en =>
          (("session.updated" : String),
            WorldPayload.catchUpStatus en.1 (normalizeBackendStatus en.2))) := by
  induction svs generalizing c with
  | nil => simp [serversEvents]
  | cons sv rest ih =>
    simp only [serversEvents, List.map_append, List.flatMap_cons]
    rw [sessionEvents_content, statusEvents_content, ih]

theorem serversEvents_flag (now : Nat) (svs : List ServerData) (c : Nat) :
    ∀ e ∈ (serversEvents now svs c).1, e.upToDate = false := by
  induction svs generalizing c with
  | nil => simp [serversEvents]
  | cons sv rest ih =>
    simp only [serversEvents, List.mem_append]
    rintro e ((he | he) | he)
    · exact sessionEvents_flag _ _ _ _ e he
    · exact statusEvents_flag _ _ _ e he
    · exact ih _ e he

theorem serversEvents_length (now : Nat) (svs : List ServerData) (c : Nat) :
    (serversEvents now svs c).1.length = catchUpTotal svs := by
  have := serversEvents_offsets now svs c
  have hlen := congrArg List.length this
  simpa using hlen

theorem markLastUpToDate_map {β : Type} (f : WorldEvent → β)
    (hf : ∀ e, f { e with upToDate := true } = f e) (l : List WorldEvent) :
    (markLastUpToDate l).map f = l.map f := by
  cases hl : l.getLast? with
  | none => simp [markLastUpToDate, hl]
  | some last =>
    have hne : l ≠ [] := by
      intro h
      subst h
      simp at hl
    simp only [markLastUpToDate, hl]
    rw [List.map_append]
    conv_rhs => rw [← List.dropLast_append_getLast hne, List.map_append]
    congr 1
    rw [List.getLast?_eq_getLast l hne] at hl
    have heq : l.getLast hne = last := by
      injection hl with h2
    rw [← heq]
    simp [hf]

theorem markLastUpToDate_eq {l : List WorldEvent} (hne : l ≠ []) :
    markLastUpToDate l =
      l.dropLast ++ [{ l.getLast hne with upToDate := true }] := by
  simp [markLastUpToDate, List.getLast?_eq_getLast l hne]

/-- In a marked non-empty batch, exactly the last element carries
`upToDate = true`, provided the batch carried `false` everywhere before
marking. -/
theorem markLastUpToDate_flags {l : List WorldEvent} (hne : l ≠ [])
    (hall : ∀ e ∈ l, e.upToDate = false) :
    (∀ e ∈ (markLastUpToDate l).dropLast, e.upToDate = false) ∧
      ∃ hne' : markLastUpToDate l ≠ [],
        ((markLastUpToDate l).getLast hne').upToDate = true := by
  rw [markLastUpToDate_eq hne]
  constructor
  · intro e he
    rw [List.dropLast_concat] at he
    exact hall e (List.mem_of_mem_dropLast he)
  · refine ⟨by simp, ?_⟩
    rw [List.getLast_concat]

theorem markLastUpToDate_length (l : List WorldEvent) :
    (markLastUpToDate l).length = l.length := by
  have := markLastUpToDate_map (fun e => e.offset) (fun e => rfl) l
  have hlen := congrArg List.length this
  simpa using hlen

theorem catchUpEvents_empty {env : StreamEnv} (h : env.servers = [])
    (offset : Option String) :
    catchUpEvents env offset =
      { events := [], nextOffset := none, upToDate := true } := by
  simp [catchUpEvents, h]

theorem catchUpEvents_offsets (env : StreamEnv) (offset : Option String) :
    (catchUpEvents env offset).events.map (fun e => e.offset) =
      (List.range' (parseOffset offset + 1) (catchUpCount env)).map offsetString := by
  by_cases hs : env.servers.length = 0
  · simp [catchUpEvents, hs, catchUpCount]
  · simp only [catchUpEvents, hs, if_false, catchUpCount]
    rw [markLastUpToDate_map (fun e => e.offset) (fun e => rfl)]
    exact serversEvents_offsets env.now env.servers (parseOffset offset)

theorem catchUpEvents_content (env : StreamEnv) (offset : Option String) :
    (catchUpEvents env offset).events.map eventContent =
      catchUpContentSpec env := by
  by_cases hs : env.servers.length = 0
  · simp [catchUpEvents, hs, catchUpContentSpec]
  · simp only [catchUpEvents, hs, if_false, catchUpContentSpec]
    rw [markLastUpToDate_map eventContent (fun e => rfl)]
    exact serversEvents_content env.now env.servers (parseOffset offset)

theorem catchUpEvents_length (env : StreamEnv) (offset : Option String) :
    (catchUpEvents env offset).events.length = catchUpCount env := by
  have := catchUpEvents_offsets env offset
  have hlen := congrArg List.length this
  simpa using hlen

theorem catchUpEvents_nextOffset (env : StreamEnv) (offset : Option String) :
    (catchUpEvents env offset).nextOffset =
      ((catchUpEvents env offset).events.getLast?).map (fun e => e.offset) := by
  by_cases hs : env.servers.length = 0
  · simp [catchUpEvents, hs]
  · simp only [catchUpEvents, hs, if_false]
    cases hl : (markLastUpToDate
        (serversEvents env.now env.servers (parseOffset offset)).1).getLast? <;>
      simp [hl]

theorem getLast?_offsets (env : StreamEnv) (offset : Option String) :
    ((catchUpEvents env offset).events.getLast?).map (fun e => e.offset) =
      if catchUpCount env = 0 then none
      else some (offsetString (parseOffset offset + catchUpCount env)) := by
  have hoff := catchUpEvents_offsets env offset
  have := congrArg List.getLast? hoff
  rw [List.getLast?_map, List.getLast?_map] at this
  by_cases hc : catchUpCount env = 0
  · rw [hc] at this
    have h0 : List.range' (parseOffset offset + 1) 0 = [] := rfl
    rw [h0] at this
    simpa [hc] using this
  · obtain ⟨t, ht⟩ : ∃ t, catchUpCount env = t + 1 := ⟨catchUpCount env - 1, by omega⟩
    rw [ht, List.range'_1_concat, List.getLast?_concat] at this
    have hne : ¬ (t + 1 = 0) := by omega
    rw [this, ht, if_neg hne]
    show some (offsetString (parseOffset offset + 1 + t)) =
      some (offsetString (parseOffset offset + (t + 1)))
    congr 2
    omega

/-- The next offset a non-empty catch-up reports parses back to the saved
counter plus the batch size: the counter is genuinely shared. -/
theorem catchUpEvents_nextOffset_val (env : StreamEnv) (offset : Option String) :
    (catchUpEvents env offset).nextOffset =
      if catchUpCount env = 0 then none
      else some (offsetString (parseOffset offset + catchUpCount env)) := by
  rw [catchUpEvents_nextOffset]
  exact getLast?_offsets env offset

theorem tailEventsFrom_cons_pos (now : Nat) (g : GlobalEvent)
    (rest : List GlobalEvent) (c : Nat) (hg : isRecognizedType g.type = true) :
    tailEventsFrom now (g :: rest) c =
      { type := g.type, offset := offsetString (c + 1), timestamp := now,
        upToDate := false,
        payload := WorldPayload.live g.props } :: tailEventsFrom now rest (c + 1) := by
  simp [tailEventsFrom, hg]

theorem tailEventsFrom_cons_neg (now : Nat) (g : GlobalEvent)
    (rest : List GlobalEvent) (c : Nat) (hg : ¬ isRecognizedType g.type = true) :
    tailEventsFrom now (g :: rest) c = tailEventsFrom now rest c := by
  simp [tailEventsFrom, hg]

theorem tailEventsFrom_offsets (now : Nat) (gs : List GlobalEvent) (c : Nat) :
    (tailEventsFrom now gs c).map (fun e => e.offset) =
      (List.range' (c + 1)
        (gs.filter fun g => isRecognizedType g.type).length).map offsetString := by
  induction gs generalizing c with
  | nil => simp [tailEventsFrom]
  | cons g rest ih =>
    by_cases hg : isRecognizedType g.type
    · rw [tailEventsFrom_cons_pos now g rest c hg, List.map_cons, ih,
        List.filter_cons, if_pos hg, List.length_cons]
      rfl
    · rw [tailEventsFrom_cons_neg now g rest c hg, ih,
        List.filter_cons, if_neg hg]

theorem tailEventsFrom_content (now : Nat) (gs : List GlobalEvent) (c : Nat) :
    (tailEventsFrom now gs c).map eventContent =
      (gs.filter fun g => isRecognizedType g.type).map fun g =>
        (g.type, WorldPayload.live g.props) := by
  induction gs generalizing c with
  | nil => simp [tailEventsFrom]
  | cons g rest ih =>
    by_cases hg : isRecognizedType g.type
    · rw [tailEventsFrom_cons_pos now g rest c hg, List.map_cons, ih,
        List.filter_cons, if_pos hg, List.map_cons]
      rfl
    · rw [tailEventsFrom_cons_neg now g rest c hg, ih,
        List.filter_cons, if_neg hg]

theorem tailEventsFrom_flag (now : Nat) (gs : List GlobalEvent) (c : Nat) :
    ∀ e ∈ tailEventsFrom now gs c, e.upToDate = false := by
  induction gs generalizing c with
  | nil => simp [tailEventsFrom]
  | cons g rest ih =>
    by_cases hg : isRecognizedType g.type
    · rw [tailEventsFrom_cons_pos now g rest c hg]
      intro e he
      rcases List.mem_cons.mp he with rfl | he'
      · rfl
      · exact ih (c + 1) e he'
    · rw [tailEventsFrom_cons_neg now g rest c hg]
      exact ih c

/-- The scan-project-filter pipeline of `resumeEvents` is the identity on the
concatenated stream: the initial scan state is dropped by the null filter and
every accumulated state projects back to its event. -/
theorem scan_pipeline (l : List WorldEvent) (st : ScanState) :
    (((List.scanl
        (fun (_ : ScanState) (e : WorldEvent) =>
          ({ lastOffset := some e.offset, event := some e } : ScanState)) st l).map
      (fun s => s.event)).filterMap id) = st.event.toList ++ l := by
  induction l generalizing st with
  | nil =>
    cases he : st.event <;> simp [List.scanl_nil, he]
  | cons a rest ih =>
    rw [List.scanl_cons]
    simp only [List.map_append, List.filterMap_append, List.map_cons,
      List.map_nil]
    rw [ih]
    cases he : st.event <;> simp [he]

theorem resumeEvents_eq (env : StreamEnv) (saved : Option String) :
    resumeEvents env saved =
      (catchUpEvents env saved).events ++
        tailEvents env (jsOrOffset (catchUpEvents env saved).nextOffset saved) := by
  unfold resumeEvents
  rw [scan_pipeline]
  rfl

end World

namespace World

theorem parseOffset_some (n : Nat) :
    parseOffset (some (offsetString n)) = n := parseDecimal_offsetString n

/-- The live tail of a resume call starts exactly where the catch-up batch
stopped: at the saved counter plus the batch size. -/
theorem resume_tail_start (env : StreamEnv) (o : Nat) :
    tailEvents env
        (jsOrOffset (catchUpEvents env (some (offsetString o))).nextOffset
          (some (offsetString o))) =
      tailEventsFrom env.now env.live (o + catchUpCount env) := by
  have tailEvents_def : ∀ x, tailEvents env x =
      tailEventsFrom env.now env.live (parseOffset x) := fun x => rfl
  rw [catchUpEvents_nextOffset_val]
  by_cases hc : catchUpCount env = 0
  · rw [if_pos hc, hc, tailEvents_def]
    simp [jsOrOffset, parseOffset_some]
  · rw [if_neg hc, tailEvents_def]
    simp [jsOrOffset, parseOffset_some]

theorem resumeEvents_offsets (env : StreamEnv) (o : Nat) :
    (resumeEvents env (some (offsetString o))).map (fun e => e.offset) =
      (List.range' (o + 1) (catchUpCount env + liveCount env)).map offsetString := by
  rw [resumeEvents_eq, List.map_append, catchUpEvents_offsets, parseOffset_some,
    resume_tail_start, tailEventsFrom_offsets]
  rw [← List.map_append]
  congr 1
  have h := List.range'_append (o + 1) (catchUpCount env) (liveCount env) 1
  have e1 : o + 1 + 1 * catchUpCount env = o + catchUpCount env + 1 := by omega
  rw [e1] at h
  have e2 : (env.live.filter fun g => isRecognizedType g.type).length =
      liveCount env := rfl
  rw [e2, h, Nat.add_comm (liveCount env) (catchUpCount env)]

/-- C1: for every saved offset, the event sequence emitted by
`resume(savedOffset)` equals the bounded batch returned by
`catchUp(savedOffset)` followed by the live tail started at the catch-up's
`nextOffset`, under one shared offset counter: the offsets form the
contiguous counter range starting right after the saved offset (so no entry
of the underlying log — the synthesized snapshot followed by the recognized
live events — is omitted and none is emitted twice), and no emitted event
has an offset less than or equal to the saved offset. -/
theorem resume_refines_catchup_then_tail (env : StreamEnv) (o : Nat) :
    resumeEvents env (some (offsetString o)) =
        (catchUpEvents env (some (offsetString o))).events ++
          tailEvents env
            (jsOrOffset (catchUpEvents env (some (offsetString o))).nextOffset
              (some (offsetString o))) ∧
      (resumeEvents env (some (offsetString o))).map (fun e => e.offset) =
        (List.range' (o + 1) (catchUpCount env + liveCount env)).map offsetString ∧
      (resumeEvents env (some (offsetString o))).Nodup ∧
      (∀ e ∈ resumeEvents env (some (offsetString o)), o < parseDecimal e.offset) ∧
      (resumeEvents env (some (offsetString o))).map eventContent =
        catchUpContentSpec env ++ liveContentSpec env := by
  refine ⟨resumeEvents_eq env _, resumeEvents_offsets env o, ?_, ?_, ?_⟩
  · apply List.Nodup.of_map (fun e => e.offset)
    rw [resumeEvents_offsets]
    exact List.Nodup.map (fun a b hab => offsetString_inj hab)
      (List.nodup_range' _ _)
  · intro e he
    have hmem : e.offset ∈
        (resumeEvents env (some (offsetString o))).map (fun e => e.offset) :=
      List.mem_map_of_mem _ he
    rw [resumeEvents_offsets] at hmem
    obtain ⟨k, hk, hek⟩ := List.mem_map.mp hmem
    have hkb := List.mem_range'_1.mp hk
    rw [← hek, parseDecimal_offsetString]
    omega
  · rw [resumeEvents_eq, List.map_append, catchUpEvents_content]
    congr 1
    exact tailEventsFrom_content env.now env.live _

/-- C10: with no discovered servers, `catchUp` returns the empty batch with
null next offset and `upToDate = true`; a `resume` started in that state is
exactly the live tail from the saved offset, every event of which carries
`upToDate = false`, so no event marked `upToDate = true` is ever emitted. -/
theorem resume_no_servers (env : StreamEnv) (saved : Option String)
    (h : env.servers = []) :
    catchUpEvents env saved =
        { events := [], nextOffset := none, upToDate := true } ∧
      resumeEvents env saved = tailEvents env saved ∧
      ∀ e ∈ resumeEvents env saved, e.upToDate = false := by
  have hc := catchUpEvents_empty h saved
  have hres : resumeEvents env saved = tailEvents env saved := by
    rw [resumeEvents_eq, hc]
    rfl
  refine ⟨hc, hres, ?_⟩
  rw [hres]
  intro e he
  exact tailEventsFrom_flag env.now env.live _ e he

/-- Environment used to instantiate `resume_no_servers`: no servers, two live
events of which one has a recognized type. -/
def noServerEnv : StreamEnv :=
  { servers := [],
    live := [{ type := "session.updated", props := "p" },
             { type := "server.heartbeat", props := "q" }],
    now := 3 }

theorem resume_no_servers_witness :
    catchUpEvents noServerEnv none =
        { events := [], nextOffset := none, upToDate := true } ∧
      resumeEvents noServerEnv none = tailEvents noServerEnv none ∧
      ∀ e ∈ resumeEvents noServerEnv none, e.upToDate = false :=
  resume_no_servers noServerEnv none rfl

end World

namespace World

/-- Offsets of a catch-up batch are `offsetString` images of the contiguous
counter range; membership extraction helper. -/
theorem catchUp_mem_offset {env : StreamEnv} {o : Nat} {e : WorldEvent}
    (he : e ∈ (catchUpEvents env (some (offsetString o))).events) :
    ∃ k, (o + 1 ≤ k ∧ k < o + 1 + catchUpCount env) ∧ e.offset = offsetString k := by
  have hmem : e.offset ∈
      (catchUpEvents env (some (offsetString o))).events.map (fun e => e.offset) :=
    List.mem_map_of_mem _ he
  rw [catchUpEvents_offsets, parseOffset_some] at hmem
  obtain ⟨k, hk, hek⟩ := List.mem_map.mp hmem
  exact ⟨k, List.mem_range'_1.mp hk, hek.symm⟩

/-- C3 (amended): provided the counter values of the batch stay below
`10 ^ 10` (the 10-digit range), every batch returned by `catchUp(offset)` has
strictly increasing offsets, each a 10-character zero-padded decimal string
whose lexicographic order equals numeric order and each strictly greater than
the given offset; in a non-empty batch exactly the last event carries
`upToDate = true` and `nextOffset` equals that last event's offset. Outside
the 10-digit range `padStart` leaves longer strings unpadded, refuting the
unconditional claim. -/
theorem catchUp_batch_shape (env : StreamEnv) (o : Nat)
    (hb : o + catchUpCount env < 10 ^ 10) :
    List.Pairwise (fun a b => a.offset < b.offset)
        (catchUpEvents env (some (offsetString o))).events ∧
      (∀ e ∈ (catchUpEvents env (some (offsetString o))).events,
        e.offset.length = 10 ∧ e.offset = offsetString (parseDecimal e.offset)) ∧
      (∀ e₁ ∈ (catchUpEvents env (some (offsetString o))).events,
        ∀ e₂ ∈ (catchUpEvents env (some (offsetString o))).events,
          (e₁.offset < e₂.offset ↔ parseDecimal e₁.offset < parseDecimal e₂.offset)) ∧
      (∀ e ∈ (catchUpEvents env (some (offsetString o))).events,
        offsetString o < e.offset ∧ o < parseDecimal e.offset) ∧
      ((catchUpEvents env (some (offsetString o))).events ≠ [] →
        ∃ last,
          (catchUpEvents env (some (offsetString o))).events.getLast? = some last ∧
          last.upToDate = true ∧
          (catchUpEvents env (some (offsetString o))).nextOffset = some last.offset ∧
          ∀ e ∈ (catchUpEvents env (some (offsetString o))).events.dropLast,
            e.upToDate = false) := by
  have hoff := catchUpEvents_offsets env (some (offsetString o))
  rw [parseOffset_some] at hoff
  refine ⟨?_, ?_, ?_, ?_, ?_⟩
  · have h1 : List.Pairwise (fun a b : String => a < b)
        ((catchUpEvents env (some (offsetString o))).events.map
          fun e => e.offset) := by
      rw [hoff, List.pairwise_map]
      apply List.Pairwise.imp_of_mem ?_ (List.pairwise_lt_range' _ _)
      intro a b ha hb' hab
      have hbb := List.mem_range'_1.mp hb'
      exact offsetString_lt hab (by omega)
    exact List.pairwise_map.mp h1
  · intro e he
    obtain ⟨k, hk, hek⟩ := catchUp_mem_offset he
    have hk10 : k < 10 ^ 10 := by omega
    rw [hek, parseDecimal_offsetString]
    exact ⟨offsetString_length hk10, rfl⟩
  · intro e₁ he₁ e₂ he₂
    obtain ⟨k₁, hk₁, hek₁⟩ := catchUp_mem_offset he₁
    obtain ⟨k₂, hk₂, hek₂⟩ := catchUp_mem_offset he₂
    rw [hek₁, hek₂, parseDecimal_offsetString, parseDecimal_offsetString]
    constructor
    · intro hlt
      rcases Nat.lt_trichotomy k₁ k₂ with h | h | h
      · exact h
      · subst h
        exact absurd hlt (lt_irrefl _)
      · exact absurd hlt (lt_asymm (offsetString_lt h (by omega)))
    · intro h
      exact offsetString_lt h (by omega)
  · intro e he
    obtain ⟨k, hk, hek⟩ := catchUp_mem_offset he
    rw [hek, parseDecimal_offsetString]
    exact ⟨offsetString_lt (by omega) (by omega), by omega⟩
  · intro hne
    by_cases hs : env.servers.length = 0
    · exfalso
      apply hne
      rw [catchUpEvents_empty (List.length_eq_zero.mp hs)]
    · have hBev : (catchUpEvents env (some (offsetString o))).events =
          markLastUpToDate
            (serversEvents env.now env.servers
              (parseOffset (some (offsetString o)))).1 := by
        simp [catchUpEvents, hs]
      have hu : (serversEvents env.now env.servers
          (parseOffset (some (offsetString o)))).1 ≠ [] := by
        intro h0
        apply hne
        rw [hBev, h0]
        rfl
      have hflags := serversEvents_flag env.now env.servers
        (parseOffset (some (offsetString o)))
      have hmark := markLastUpToDate_eq hu
      refine ⟨{ (serversEvents env.now env.servers
          (parseOffset (some (offsetString o)))).1.getLast hu with
            upToDate := true }, ?_, rfl, ?_, ?_⟩
      · rw [hBev, hmark, List.getLast?_concat]
      · rw [catchUpEvents_nextOffset, hBev, hmark, List.getLast?_concat]
        rfl
      · rw [hBev, hmark, List.dropLast_concat]
        intro e he
        exact hflags e (List.mem_of_mem_dropLast he)

/-- Session, server and environment for the 10-digit-boundary counterexample. -/
def widthCexEnv : StreamEnv :=
  { servers := [{ directory := "/proj",
                  sessions := [{ id := "ses-1", title := "t", directory := "/proj",
                                 time := { created := 0, updated := 0 } }],
                  statusEntries := [] }],
    live := [],
    now := 0 }

/-- C3 counterexample: at saved offset `"9999999999"` (a valid 10-digit
offset) a one-event batch gets offset `"10000000000"` — eleven characters,
not a fixed-width 10-digit string, and lexicographically smaller than the
given offset rather than greater. -/
theorem catchUp_batch_shape_cex :
    ((catchUpEvents widthCexEnv (some "9999999999")).events.map
        fun e => e.offset) = ["10000000000"] ∧
      ("10000000000" : String).length ≠ 10 ∧
      ¬ (("9999999999" : String) < "10000000000") := by
  refine ⟨by decide, by decide, ?_⟩
  intro hlt
  rw [String.lt_iff_toList_lt] at hlt
  have : ¬ (("9999999999" : String).toList < ("10000000000" : String).toList) := by
    decide
  exact this hlt

end World

namespace World

/-! ## Reconnection

The embedding of the connection fiber of `WorldSSE.connectToServer` in
`world/sse.ts`. The `while` loop's body is an `Effect.gen` generator whose
`try` block performs `yield* this.bootstrapFromServer(port)` and
`yield* Stream.runForEach(connectToSSE(port), ...)`: when one of these
yielded effects fails, `Effect.gen` short-circuits on the error channel and
never resumes the generator, so the surrounding JavaScript `try/catch` —
which catches only synchronous throws — never sees the failure. The `catch`
block (`attempts++`, the `autoReconnect` check, and the exponential-backoff
sleep) is therefore unreachable: the fiber either breaks out of the loop
when the stream ends normally or fails outright on the first
bootstrap/stream failure.
-/

/-- Embedding of `const delay = Math.min(1000 * Math.pow(2, attempts), 30000)`
from the `catch` block of `connectToServer` — an expression the program never
evaluates, since the `catch` is unreachable for yielded-effect failures. -/
def backoffDelay (attempts : Nat) : Nat := min (1000 * 2 ^ attempts) 30000

/-- Embedding of `maxReconnectAttempts: config.maxReconnectAttempts ?? 10`. -/
def defaultMaxReconnectAttempts : Nat := 10

/-- Outcome of the `try` block of one `while` iteration of `connectToServer`:
the SSE stream ended normally (`break`) or a yielded bootstrap/stream effect
failed. -/
inductive ConnOutcome where
  | streamEnd
  | failure
deriving DecidableEq, Repr

/-- Result of the connection fiber, projected to the list of backoff delays
it sleeps, the final value of the `attempts` counter, and whether the fiber
completes (`ok`) or fails with the yielded effect's error (`error`). -/
structure ConnRun where
  delays : List Nat
  attempts : Nat
  outcome : Except Unit Unit
deriving Repr

/-- The connection fiber of `connectToServer` with `running = true`, under
Effect semantics: the `while (attempts < maxReconnectAttempts)` guard is
checked, then the first iteration either breaks on a normal stream end or
fails the whole fiber on a bootstrap/stream failure — the `catch` block
never runs, so `attempts` is never incremented, no backoff delay is slept,
`autoReconnect` is never read, and no later outcome is consumed. -/
def connectionFiber (maxAttempts : Nat) (_autoReconnect : Bool)
    (attempts : Nat) (outcomes : List ConnOutcome) : ConnRun :=
  if attempts < maxAttempts then
    match outcomes with
    | [] => ⟨[], attempts, .ok ()⟩
    | o :: _rest =>
      match o with
      | .streamEnd => ⟨[], attempts, .ok ()⟩
      | .failure => ⟨[], attempts, .error ()⟩
  else ⟨[], attempts, .ok ()⟩

/-- C4: the claimed reconnection behavior does not exist in the program. For
every `maxReconnectAttempts` value, both `autoReconnect` settings and every
sequence of connection outcomes, the connection fiber sleeps no backoff
delay at all, never increments the `attempts` counter, ignores everything
past the first outcome (so there is no second attempt to delay before), and
on a first-attempt failure fails the fiber instead of retrying. The claim —
matched by the code's own configuration docs ("Reconnect on disconnect
(default: true)", "Max reconnect attempts (default: 10)"), its
`// Exponential backoff` comment and the repo's SSE characterization tests
("uses exponential backoff when autoReconnect: true", "Should retry with
exponential backoff (1s, 2s, ...)") — describes retry logic sitting in a
`catch` block that Effect failures bypass. -/
theorem connect_retry_dead (maxA : Nat) (b c : Bool) (first : ConnOutcome)
    (rest more : List ConnOutcome) :
    (connectionFiber maxA b 0 (first :: rest)).delays = [] ∧
      (connectionFiber maxA b 0 (first :: rest)).attempts = 0 ∧
      connectionFiber maxA b 0 (first :: rest) =
        connectionFiber maxA c 0 (first :: more) ∧
      (connectionFiber maxA b 0 (first :: rest)).outcome =
        (if 0 < maxA ∧ first = ConnOutcome.failure
          then Except.error () else Except.ok ()) ∧
      defaultMaxReconnectAttempts = 10 := by
  refine ⟨?_, ?_, ?_, ?_, rfl⟩ <;>
    · by_cases h : 0 < maxA
      · cases first <;> simp [connectionFiber, h]
      · simp [connectionFiber, h]

end World

namespace World

/-! ## World Store

Modelled from the spec: the `WorldStore` implementation (`world/atoms.ts`) is
not among the sources — only its tests and callers are. The definitions below
follow the specification's data-model and component-design sections: three
id-sorted collections plus a status map, upsert by binary-search
locate-replace-or-insert, bulk set, and a derived `WorldState` that is a pure
function of the raw state.
-/

/-- Modelled from the spec: aggregate connection status vocabulary. -/
inductive ConnectionStatus where
  | disconnected
  | connecting
  | connected
  | error
deriving DecidableEq, Repr

/-- Modelled from the spec: the raw store state. `lastUpdated` is carried as
an abstract field; wall-clock time is outside the embedding. -/
structure StoreState where
  sessions : List Session
  messages : List Message
  parts : List Part
  statusMap : List (String × SessionStatus)
  connectionStatus : ConnectionStatus
  lastUpdated : Nat
deriving DecidableEq, Repr

/-- Modelled from the spec: the freshly constructed store. -/
def emptyStore : StoreState :=
  { sessions := [], messages := [], parts := [], statusMap := [],
    connectionStatus := .disconnected, lastUpdated := 0 }

/-- Modelled from the spec: upsert into an id-sorted collection — locate by
key, replace if found, else insert maintaining ascending sort order
(extensionally the binary-search upsert the spec describes). -/
def upsertSorted {α : Type} (key : α → String) (x : α) : List α → List α
  | [] => [x]
  | y :: ys =>
    if key x < key y then x :: y :: ys
    else if key x = key y then x :: ys
    else y :: upsertSorted key x ys

/-- Modelled from the spec: bulk replace sorts the new collection ascending
by id; entries arriving with a duplicate id collapse to the last one, the
same resolution upsert gives. -/
def setSorted {α : Type} (key : α → String) (l : List α) : List α :=
  l.foldl (fun acc x => upsertSorted key x acc) []

def upsertSession (st : StoreState) (s : Session) : StoreState :=
  { st with sessions := upsertSorted (fun x => x.id) s st.sessions }

def upsertMessage (st : StoreState) (m : Message) : StoreState :=
  { st with messages := upsertSorted (fun x => x.id) m st.messages }

def upsertPart (st : StoreState) (p : Part) : StoreState :=
  { st with parts := upsertSorted (fun x => x.id) p st.parts }

def setSessions (st : StoreState) (l : List Session) : StoreState :=
  { st with sessions := setSorted (fun x => x.id) l }

def setMessages (st : StoreState) (l : List Message) : StoreState :=
  { st with messages := setSorted (fun x => x.id) l }

def setParts (st : StoreState) (l : List Part) : StoreState :=
  { st with parts := setSorted (fun x => x.id) l }

def setStatus (st : StoreState) (m : List (String × SessionStatus)) : StoreState :=
  { st with statusMap := m }

/-- Modelled from the spec: map write of `updateStatus` — replace the entry
for the id or add one. -/
def setStatusEntry (id : String) (status : SessionStatus) :
    List (String × SessionStatus) → List (String × SessionStatus)
  | [] => [(id, status)]
  | en :: rest =>
    if en.1 = id then (id, status) :: rest
    else en :: setStatusEntry id status rest

def updateStatus (st : StoreState) (id : String) (status : SessionStatus) :
    StoreState :=
  { st with statusMap := setStatusEntry id status st.statusMap }

def setConnectionStatus (st : StoreState) (c : ConnectionStatus) : StoreState :=
  { st with connectionStatus := c }

/-- Modelled from the spec: status priority is the explicit status-map entry,
else `completed` as the safe default. -/
def lookupStatus (m : List (String × SessionStatus)) (id : String) :
    SessionStatus :=
  ((m.find? fun en => en.1 == id).map fun en => en.2).getD .completed

/-- Modelled from the spec: `isStreaming` is true iff the role is assistant
and `time.completed` is absent. -/
def msgIsStreaming (m : Message) : Bool :=
  (m.role == "assistant") && (m.time.bind fun t => t.completed).isNone

/-- Modelled from the spec: enriched message = message + its parts (the
id-sorted parts collection filtered by `messageID`) + the streaming flag. -/
structure EnrichedMessage where
  message : Message
  parts : List Part
  isStreaming : Bool
deriving DecidableEq, Repr

def enrichMessage (parts : List Part) (m : Message) : EnrichedMessage :=
  { message := m,
    parts := parts.filter fun p => p.messageID == m.id,
    isStreaming := msgIsStreaming m }

/-- Modelled from the spec: numerator of the context usage — the sum of all
defined token fields, absent fields contributing 0. -/
def tokenSum (tk : Tokens) : Nat :=
  tk.input + tk.output + tk.reasoning.getD 0 +
    (match tk.cache with
     | some c => c.read + c.write
     | none => 0)

/-- Half-up rounding to two decimal places over ℚ. -/
def round2 (q : ℚ) : ℚ := ((round (q * 100) : ℤ) : ℚ) / 100

/-- Modelled from the spec: the most recent completed assistant message of an
id-sorted message list — the last one whose role is assistant and whose
`time.completed` is present. -/
def lastCompletedAssistant (msgs : List Message) : Option Message :=
  (msgs.filter fun m =>
    (m.role == "assistant") && (m.time.bind fun t => t.completed).isSome).getLast?

/-- Modelled from the spec: `contextUsagePercent` =
`round(100 * tokenSum / limits.context, 2)` of the most recent completed
assistant message; 0 when there is no such message or it lacks tokens or a
model context limit. -/
def contextUsagePercent (msgs : List Message) : ℚ :=
  match lastCompletedAssistant msgs with
  | none => 0
  | some m =>
    match m.tokens, m.model.bind fun md => md.limits with
    | some tk, some lim => round2 ((tokenSum tk : ℚ) * 100 / (lim.context : ℚ))
    | some _, none => 0
    | none, _ => 0

/-- Modelled from the spec: enriched session = session + status (map entry or
default) + enriched messages + activity flag + context usage. -/
structure EnrichedSession where
  session : Session
  status : SessionStatus
  messages : List EnrichedMessage
  isActive : Bool
  contextUsagePercent : ℚ
deriving DecidableEq, Repr

def sessionMessages (st : StoreState) (s : Session) : List Message :=
  st.messages.filter fun m => m.sessionID == s.id

def enrichSession (st : StoreState) (s : Session) : EnrichedSession :=
  let msgs := sessionMessages st s
  let status := lookupStatus st.statusMap s.id
  { session := s,
    status := status,
    messages := msgs.map (enrichMessage st.parts),
    isActive := status == SessionStatus.running,
    contextUsagePercent := contextUsagePercent msgs }

/-- Modelled from the spec: recency key — the maximum of the session's
`time.updated` and the `time.created` of its messages. -/
def lastActivity (st : StoreState) (s : Session) : Nat :=
  (sessionMessages st s).foldl
    (fun acc m =>
      max acc (match m.time with
               | some t => t.created
               | none => 0))
    s.time.updated

/-- Modelled from the spec: most-recent-activity-descending order with ties
broken by id ascending. -/
def sessionLE (st : StoreState) (a b : Session) : Bool :=
  if lastActivity st a = lastActivity st b then decide (a.id ≤ b.id)
  else decide (lastActivity st b < lastActivity st a)

/-- Modelled from the spec: the derived `WorldState`. -/
structure WorldState where
  sessions : List EnrichedSession
  activeSessionCount : Nat
  activeSession : Option EnrichedSession
  connectionStatus : ConnectionStatus
  lastUpdated : Nat
deriving DecidableEq, Repr

/-- Modelled from the spec: `getState()` — the derived view is a pure
function of the raw state: sessions enriched and ordered by recency,
the active count, the first active session or null, the connection status. -/
def getState (st : StoreState) : WorldState :=
  let sorted := (st.sessions.mergeSort (sessionLE st)).map (enrichSession st)
  { sessions := sorted,
    activeSessionCount := (sorted.filter fun s => s.isActive).length,
    activeSession := (sorted.filter fun s => s.isActive).head?,
    connectionStatus := st.connectionStatus,
    lastUpdated := st.lastUpdated }

end World

namespace World

theorem upsertSorted_mem_elim {α : Type} (key : α → String) (x : α)
    (l : List α) : ∀ z ∈ upsertSorted key x l, z = x ∨ z ∈ l := by
  induction l with
  | nil =>
    intro z hz
    simp [upsertSorted] at hz
    exact Or.inl hz
  | cons y ys ih =>
    intro z hz
    simp only [upsertSorted] at hz
    by_cases h1 : key x < key y
    · rw [if_pos h1] at hz
      rcases List.mem_cons.mp hz with rfl | hz'
      · exact Or.inl rfl
      · exact Or.inr hz'
    · rw [if_neg h1] at hz
      by_cases h2 : key x = key y
      · rw [if_pos h2] at hz
        rcases List.mem_cons.mp hz with rfl | hz'
        · exact Or.inl rfl
        · exact Or.inr (List.mem_cons_of_mem _ hz')
      · rw [if_neg h2] at hz
        rcases List.mem_cons.mp hz with rfl | hz'
        · exact Or.inr (List.mem_cons_self _ _)
        · rcases ih z hz' with h | h
          · exact Or.inl h
          · exact Or.inr (List.mem_cons_of_mem _ h)

theorem upsertSorted_self_mem {α : Type} (key : α → String) (x : α)
    (l : List α) : x ∈ upsertSorted key x l := by
  induction l with
  | nil => simp [upsertSorted]
  | cons y ys ih =>
    simp only [upsertSorted]
    by_cases h1 : key x < key y
    · rw [if_pos h1]
      exact List.mem_cons_self _ _
    · rw [if_neg h1]
      by_cases h2 : key x = key y
      · rw [if_pos h2]
        exact List.mem_cons_self _ _
      · rw [if_neg h2]
        exact List.mem_cons_of_mem _ ih

theorem upsertSorted_sorted {α : Type} (key : α → String) (x : α)
    {l : List α} (hl : List.Pairwise (fun a b => key a < key b) l) :
    List.Pairwise (fun a b => key a < key b) (upsertSorted key x l) := by
  induction l with
  | nil => simp [upsertSorted]
  | cons y ys ih =>
    rcases List.pairwise_cons.mp hl with ⟨hy, hys⟩
    simp only [upsertSorted]
    by_cases h1 : key x < key y
    · rw [if_pos h1]
      refine List.pairwise_cons.mpr ⟨?_, hl⟩
      intro z hz
      rcases List.mem_cons.mp hz with rfl | hz'
      · exact h1
      · exact lt_trans h1 (hy z hz')
    · rw [if_neg h1]
      by_cases h2 : key x = key y
      · rw [if_pos h2]
        refine List.pairwise_cons.mpr ⟨?_, hys⟩
        intro z hz
        rw [h2]
        exact hy z hz
      · rw [if_neg h2]
        have hyx : key y < key x := by
          rcases lt_trichotomy (key x) (key y) with h | h | h
          · exact absurd h h1
          · exact absurd h h2
          · exact h
        refine List.pairwise_cons.mpr ⟨?_, ih hys⟩
        intro z hz
        rcases upsertSorted_mem_elim key x ys z hz with rfl | hz'
        · exact hyx
        · exact hy z hz'

theorem upsertSorted_perm_fresh {α : Type} (key : α → String) (x : α)
    {l : List α} (hfresh : key x ∉ l.map key) :
    (upsertSorted key x l).Perm (x :: l) := by
  induction l with
  | nil => simp [upsertSorted]
  | cons y ys ih =>
    simp only [List.map_cons, List.mem_cons] at hfresh
    push_neg at hfresh
    simp only [upsertSorted]
    by_cases h1 : key x < key y
    · rw [if_pos h1]
    · rw [if_neg h1, if_neg hfresh.1]
      have h3 := List.Perm.cons y (ih hfresh.2)
      exact h3.trans (List.Perm.swap x y ys)

theorem foldl_upsert_perm {α : Type} (key : α → String) :
    ∀ (l acc : List α), (((acc ++ l).map key).Nodup) →
      (l.foldl (fun acc x => upsertSorted key x acc) acc).Perm (l ++ acc) := by
  intro l
  induction l with
  | nil =>
    intro acc h
    simp
  | cons x rest ih =>
    intro acc h
    have hperm0 : ((acc ++ x :: rest).map key).Perm
        ((x :: (acc ++ rest)).map key) := by
      apply List.Perm.map
      exact List.perm_middle
    have h2 : ((x :: (acc ++ rest)).map key).Nodup :=
      (List.Perm.nodup_iff hperm0).mp h
    simp only [List.map_cons, List.nodup_cons, List.map_append,
      List.mem_append] at h2
    have hfresh : key x ∉ acc.map key := fun hc => h2.1 (Or.inl hc)
    have hup := upsertSorted_perm_fresh key x hfresh
    simp only [List.foldl_cons]
    have hnodup' : (((upsertSorted key x acc) ++ rest).map key).Nodup := by
      have hpp : (((upsertSorted key x acc) ++ rest).map key).Perm
          (((x :: acc) ++ rest).map key) := by
        apply List.Perm.map
        exact List.Perm.append_right rest hup
      apply (List.Perm.nodup_iff hpp).mpr
      have hpp2 : (((x :: acc) ++ rest).map key).Perm
          ((acc ++ x :: rest).map key) := by
        apply List.Perm.map
        exact List.perm_middle.symm
      exact (List.Perm.nodup_iff hpp2).mpr h
    have step1 := ih _ hnodup'
    have step2 : (rest ++ upsertSorted key x acc).Perm (rest ++ (x :: acc)) :=
      List.Perm.append_left rest hup
    have step3 : (rest ++ (x :: acc)).Perm (x :: (rest ++ acc)) :=
      List.perm_middle
    exact (step1.trans step2).trans step3

theorem setSorted_perm {α : Type} (key : α → String) (l : List α)
    (h : (l.map key).Nodup) : (setSorted key l).Perm l := by
  have := foldl_upsert_perm key l [] (by simpa using h)
  simpa [setSorted] using this

theorem foldl_upsert_sorted {α : Type} (key : α → String) :
    ∀ (l acc : List α), List.Pairwise (fun a b => key a < key b) acc →
      List.Pairwise (fun a b => key a < key b)
        (l.foldl (fun acc x => upsertSorted key x acc) acc) := by
  intro l
  induction l with
  | nil => intro acc h; simpa using h
  | cons x rest ih =>
    intro acc h
    simp only [List.foldl_cons]
    exact ih _ (upsertSorted_sorted key x h)

theorem setSorted_sorted {α : Type} (key : α → String) (l : List α) :
    List.Pairwise (fun a b => key a < key b) (setSorted key l) :=
  foldl_upsert_sorted key l [] List.Pairwise.nil

theorem sorted_key_ext {α : Type} (key : α → String) {l₁ l₂ : List α}
    (hp : l₁.Perm l₂)
    (h₁ : List.Pairwise (fun a b => key a < key b) l₁)
    (h₂ : List.Pairwise (fun a b => key a < key b) l₂) : l₁ = l₂ := by
  haveI : IsAntisymm α (fun a b => key a < key b) :=
    ⟨fun a b hab hba => absurd (lt_trans hab hba) (lt_irrefl _)⟩
  exact List.eq_of_perm_of_sorted hp h₁ h₂

end World

namespace World

/-- One upsert call of the `WorldStore` mutation API. -/
inductive StoreOp where
  | sess (s : Session)
  | msg (m : Message)
  | prt (p : Part)
deriving DecidableEq, Repr

def applyOp (st : StoreState) : StoreOp → StoreState
  | .sess s => upsertSession st s
  | .msg m => upsertMessage st m
  | .prt p => upsertPart st p

def applyOps (st : StoreState) (ops : List StoreOp) : StoreState :=
  ops.foldl applyOp st

def opsSessions (ops : List StoreOp) : List Session :=
  ops.filterMap fun op =>
    match op with
    | .sess s => some s
    | _ => none

def opsMessages (ops : List StoreOp) : List Message :=
  ops.filterMap fun op =>
    match op with
    | .msg m => some m
    | _ => none

def opsParts (ops : List StoreOp) : List Part :=
  ops.filterMap fun op =>
    match op with
    | .prt p => some p
    | _ => none

theorem applyOps_sessions (ops : List StoreOp) : ∀ st : StoreState,
    (applyOps st ops).sessions =
      (opsSessions ops).foldl
        (fun acc s => upsertSorted (fun x => x.id) s acc) st.sessions := by
  induction ops with
  | nil => intro st; rfl
  | cons op rest ih =>
    intro st
    cases op with
    | sess s =>
      simp only [applyOps, List.foldl_cons, opsSessions, List.filterMap_cons]
      exact ih (upsertSession st s)
    | msg m =>
      simp only [applyOps, List.foldl_cons, opsSessions, List.filterMap_cons]
      exact ih (upsertMessage st m)
    | prt p =>
      simp only [applyOps, List.foldl_cons, opsSessions, List.filterMap_cons]
      exact ih (upsertPart st p)

theorem applyOps_messages (ops : List StoreOp) : ∀ st : StoreState,
    (applyOps st ops).messages =
      (opsMessages ops).foldl
        (fun acc m => upsertSorted (fun x => x.id) m acc) st.messages := by
  induction ops with
  | nil => intro st; rfl
  | cons op rest ih =>
    intro st
    cases op with
    | sess s =>
      simp only [applyOps, List.foldl_cons, opsMessages, List.filterMap_cons]
      exact ih (upsertSession st s)
    | msg m =>
      simp only [applyOps, List.foldl_cons, opsMessages, List.filterMap_cons]
      exact ih (upsertMessage st m)
    | prt p =>
      simp only [applyOps, List.foldl_cons, opsMessages, List.filterMap_cons]
      exact ih (upsertPart st p)

theorem applyOps_parts (ops : List StoreOp) : ∀ st : StoreState,
    (applyOps st ops).parts =
      (opsParts ops).foldl
        (fun acc p => upsertSorted (fun x => x.id) p acc) st.parts := by
  induction ops with
  | nil => intro st; rfl
  | cons op rest ih =>
    intro st
    cases op with
    | sess s =>
      simp only [applyOps, List.foldl_cons, opsParts, List.filterMap_cons]
      exact ih (upsertSession st s)
    | msg m =>
      simp only [applyOps, List.foldl_cons, opsParts, List.filterMap_cons]
      exact ih (upsertMessage st m)
    | prt p =>
      simp only [applyOps, List.foldl_cons, opsParts, List.filterMap_cons]
      exact ih (upsertPart st p)

theorem applyOps_rest (ops : List StoreOp) : ∀ st : StoreState,
    (applyOps st ops).statusMap = st.statusMap ∧
      (applyOps st ops).connectionStatus = st.connectionStatus ∧
      (applyOps st ops).lastUpdated = st.lastUpdated := by
  induction ops with
  | nil => intro st; exact ⟨rfl, rfl, rfl⟩
  | cons op rest ih =>
    intro st
    cases op with
    | sess s => exact ih (upsertSession st s)
    | msg m => exact ih (upsertMessage st m)
    | prt p => exact ih (upsertPart st p)

theorem storeStateExt {a b : StoreState} (h1 : a.sessions = b.sessions)
    (h2 : a.messages = b.messages) (h3 : a.parts = b.parts)
    (h4 : a.statusMap = b.statusMap)
    (h5 : a.connectionStatus = b.connectionStatus)
    (h6 : a.lastUpdated = b.lastUpdated) : a = b := by
  cases a
  cases b
  simp_all

/-- Insertion into an empty accumulator of two key-nodup permutations of the
same collection gives the same sorted list. -/
theorem setSorted_perm_eq {α : Type} (key : α → String) {l l' : List α}
    (hperm : l.Perm l') (hnd : (l.map key).Nodup) :
    setSorted key l' = setSorted key l := by
  have hnd' : (l'.map key).Nodup :=
    (List.Perm.nodup_iff (List.Perm.map key hperm)).mp hnd
  apply sorted_key_ext key ?_ (setSorted_sorted key l') (setSorted_sorted key l)
  exact ((setSorted_perm key l' hnd').trans hperm.symm).trans
    (setSorted_perm key l hnd).symm

/-- C2: applying upsert calls in any permutation that ends with a given final
set of entities yields a `getState()` world state identical to the one a
single bulk set of the same final entities produces. -/
theorem upsert_order_independence (ops ops' : List StoreOp)
    (hperm : ops.Perm ops')
    (hs : ((opsSessions ops).map fun s => s.id).Nodup)
    (hm : ((opsMessages ops).map fun m => m.id).Nodup)
    (hp : ((opsParts ops).map fun p => p.id).Nodup) :
    getState (applyOps emptyStore ops') =
      getState
        (setParts
          (setMessages (setSessions emptyStore (opsSessions ops))
            (opsMessages ops))
          (opsParts ops)) := by
  have hsp : (opsSessions ops).Perm (opsSessions ops') :=
    List.Perm.filterMap _ hperm
  have hmp : (opsMessages ops).Perm (opsMessages ops') :=
    List.Perm.filterMap _ hperm
  have hpp : (opsParts ops).Perm (opsParts ops') :=
    List.Perm.filterMap _ hperm
  have hrest := applyOps_rest ops' emptyStore
  have hmain : applyOps emptyStore ops' =
      setParts
        (setMessages (setSessions emptyStore (opsSessions ops))
          (opsMessages ops))
        (opsParts ops) := by
    apply storeStateExt
    · rw [applyOps_sessions]
      show setSorted (fun x => x.id) (opsSessions ops') = _
      show _ = setSorted (fun x => x.id) (opsSessions ops)
      exact setSorted_perm_eq _ hsp hs
    · rw [applyOps_messages]
      show setSorted (fun x => x.id) (opsMessages ops') = _
      show _ = setSorted (fun x => x.id) (opsMessages ops)
      exact setSorted_perm_eq _ hmp hm
    · rw [applyOps_parts]
      show setSorted (fun x => x.id) (opsParts ops') = _
      show _ = setSorted (fun x => x.id) (opsParts ops)
      exact setSorted_perm_eq _ hpp hp
    · exact hrest.1
    · exact hrest.2.1
    · exact hrest.2.2
  rw [hmain]

end World

namespace World

/-- Sorted-collection invariant of the store: each collection is strictly
sorted by id (hence ids are unique). -/
def storeInv (st : StoreState) : Prop :=
  List.Pairwise (fun a b : Session => a.id < b.id) st.sessions ∧
    List.Pairwise (fun a b : Message => a.id < b.id) st.messages ∧
    List.Pairwise (fun a b : Part => a.id < b.id) st.parts

theorem pairwise_keys_nodup {α : Type} (key : α → String) {l : List α}
    (h : List.Pairwise (fun a b => key a < key b) l) : (l.map key).Nodup :=
  List.Pairwise.map key (fun _ _ hab => ne_of_lt hab) h

/-- Strengthened membership elimination on a sorted collection: the upsert
result holds the new entry and exactly the old entries with other keys. -/
theorem upsertSorted_mem_sorted {α : Type} (key : α → String) (x : α)
    {l : List α} (hl : List.Pairwise (fun a b => key a < key b) l) :
    ∀ z ∈ upsertSorted key x l, z = x ∨ (z ∈ l ∧ key z ≠ key x) := by
  induction l with
  | nil =>
    intro z hz
    simp [upsertSorted] at hz
    exact Or.inl hz
  | cons y ys ih =>
    rcases List.pairwise_cons.mp hl with ⟨hy, hys⟩
    intro z hz
    simp only [upsertSorted] at hz
    by_cases h1 : key x < key y
    · rw [if_pos h1] at hz
      rcases List.mem_cons.mp hz with rfl | hz'
      · exact Or.inl rfl
      · refine Or.inr ⟨hz', ?_⟩
        rcases List.mem_cons.mp hz' with rfl | hz''
        · exact ne_of_gt h1
        · exact ne_of_gt (lt_trans h1 (hy z hz''))
    · rw [if_neg h1] at hz
      by_cases h2 : key x = key y
      · rw [if_pos h2] at hz
        rcases List.mem_cons.mp hz with rfl | hz'
        · exact Or.inl rfl
        · refine Or.inr ⟨List.mem_cons_of_mem _ hz', ?_⟩
          rw [h2]
          exact ne_of_gt (hy z hz')
      · rw [if_neg h2] at hz
        have hyx : key y < key x := by
          rcases lt_trichotomy (key x) (key y) with h | h | h
          · exact absurd h h1
          · exact absurd h h2
          · exact h
        rcases List.mem_cons.mp hz with rfl | hz'
        · exact Or.inr ⟨List.mem_cons_self _ _, ne_of_lt hyx⟩
        · rcases ih hys z hz' with h | ⟨hmem, hne⟩
          · exact Or.inl h
          · exact Or.inr ⟨List.mem_cons_of_mem _ hmem, hne⟩

theorem upsertSorted_count_self {α : Type} [DecidableEq α] (key : α → String)
    (x : α) {l : List α}
    (hl : List.Pairwise (fun a b => key a < key b) l) :
    (upsertSorted key x l).count x = 1 := by
  induction l with
  | nil => simp [upsertSorted]
  | cons y ys ih =>
    rcases List.pairwise_cons.mp hl with ⟨hy, hys⟩
    simp only [upsertSorted]
    by_cases h1 : key x < key y
    · rw [if_pos h1]
      have hx_not : x ∉ y :: ys := by
        intro hc
        rcases List.mem_cons.mp hc with rfl | hc'
        · exact absurd h1 (lt_irrefl _)
        · exact absurd (lt_trans h1 (hy x hc')) (lt_irrefl _)
      rw [List.count_cons_self, List.count_eq_zero.mpr hx_not]
    · rw [if_neg h1]
      by_cases h2 : key x = key y
      · rw [if_pos h2]
        have hx_not : x ∉ ys := by
          intro hc
          have hlt := hy x hc
          rw [h2] at hlt
          exact absurd hlt (lt_irrefl _)
        rw [List.count_cons_self, List.count_eq_zero.mpr hx_not]
      · rw [if_neg h2]
        have hxy : x ≠ y := fun hc => h2 (by rw [hc])
        rw [List.count_cons_of_ne hxy, ih hys]

/-- Number of occurrences of a part in the enriched world view. -/
def partOccurrences (w : WorldState) (p : Part) : Nat :=
  (w.sessions.map fun es => (es.messages.map fun em => em.parts.count p).sum).sum

/-- Occurrences of a part under one raw message. -/
def msgOcc (st : StoreState) (p : Part) (m : Message) : Nat :=
  (st.parts.filter fun q => q.messageID == m.id).count p

/-- Occurrences of a part under one raw session. -/
def sessOcc (st : StoreState) (p : Part) (s : Session) : Nat :=
  ((sessionMessages st s).map (msgOcc st p)).sum

/-- Occurrences of a part over the raw store. -/
def stateOcc (st : StoreState) (p : Part) : Nat :=
  (st.sessions.map (sessOcc st p)).sum

theorem partOccurrences_getState (st : StoreState) (p : Part) :
    partOccurrences (getState st) p = stateOcc st p := by
  have h1 : partOccurrences (getState st) p =
      ((st.sessions.mergeSort (sessionLE st)).map (sessOcc st p)).sum := by
    simp only [partOccurrences, getState, List.map_map]
    congr 1
    apply List.map_congr_left
    intro s hs
    simp only [Function.comp, enrichSession, sessOcc, msgOcc, List.map_map]
    rfl
  rw [h1, stateOcc]
  exact List.Perm.sum_eq (List.Perm.map _ (List.mergeSort_perm _ _))

theorem msgOcc_ne (st : StoreState) (p : Part) (m : Message)
    (h : p.messageID ≠ m.id) : msgOcc st p m = 0 := by
  apply List.count_eq_zero.mpr
  intro hc
  rcases List.mem_filter.mp hc with ⟨_, hpred⟩
  exact h (by simpa using hpred)

theorem sum_map_indicator {α : Type} (key : α → String) (f : α → Nat)
    (x : α) :
    ∀ l : List α, x ∈ l → (l.map key).Nodup →
      (∀ y ∈ l, f y = if key y = key x then 1 else 0) →
      (l.map f).sum = 1 := by
  intro l
  induction l with
  | nil => intro hx; simp at hx
  | cons h t ih =>
    intro hx hnd hf
    simp only [List.map_cons, List.nodup_cons] at hnd
    by_cases hk : key h = key x
    · have hfh : f h = 1 := by
        rw [hf h (List.mem_cons_self _ _), if_pos hk]
      have hz : ∀ y ∈ t, f y = 0 := by
        intro y hy
        have hne : key y ≠ key x := by
          intro hc
          exact hnd.1 (by rw [hk, ← hc]; exact List.mem_map_of_mem key hy)
        rw [hf y (List.mem_cons_of_mem _ hy), if_neg hne]
      simp only [List.map_cons, List.sum_cons, hfh]
      have : (t.map f).sum = 0 := by
        apply List.sum_eq_zero
        intro v hv
        rcases List.mem_map.mp hv with ⟨y, hy, rfl⟩
        exact hz y hy
      omega
    · have hfh : f h = 0 := by
        rw [hf h (List.mem_cons_self _ _), if_neg hk]
      have hxt : x ∈ t := by
        rcases List.mem_cons.mp hx with rfl | hx'
        · exact absurd rfl hk
        · exact hx'
      simp only [List.map_cons, List.sum_cons, hfh]
      rw [ih hxt hnd.2 fun y hy => hf y (List.mem_cons_of_mem _ hy)]

end World

namespace World

/-- The per-message occurrence count after both parents arrive: one under the
parent id, zero elsewhere. -/
theorem msgOcc_upserted (st' : StoreState) (base : List Part) (p : Part)
    (m : Message)
    (hparts_eq : st'.parts = upsertSorted (fun x => x.id) p base)
    (hm_id : m.id = p.messageID)
    (hsorted : List.Pairwise (fun a b : Part => a.id < b.id) base)
    (m' : Message) :
    msgOcc st' p m' = if m'.id = m.id then 1 else 0 := by
  by_cases hid : m'.id = m.id
  · rw [if_pos hid]
    show (st'.parts.filter _).count p = 1
    rw [hparts_eq, List.count_filter]
    · exact upsertSorted_count_self (fun x => x.id) p hsorted
    · show (p.messageID == m'.id) = true
      rw [hid, ← hm_id]
      exact beq_self_eq_true _
  · rw [if_neg hid]
    apply msgOcc_ne
    rw [← hm_id]
    exact fun hc => hid hc.symm

/-- C6: a part upserted while its parent message (and session) are absent is
retained in the raw collection and excluded from every session's enriched
view; once the parent message and session are both upserted, the part appears
exactly once, under the enriched message carrying its `messageID`, inside the
session carrying that message's `sessionID`. Every operation involved is a
total function of the store: nothing throws. -/
theorem part_before_parents (st : StoreState) (p : Part) (m : Message)
    (s : Session) (hinv : storeInv st)
    (hm_id : m.id = p.messageID)
    (hs_id : s.id = m.sessionID)
    (hnomsg : ∀ m' ∈ st.messages, m'.id ≠ p.messageID) :
    p ∈ (upsertPart st p).parts ∧
      partOccurrences (getState (upsertPart st p)) p = 0 ∧
      partOccurrences
        (getState (upsertSession (upsertMessage (upsertPart st p) m) s)) p = 1 ∧
      (∀ es ∈ (getState
          (upsertSession (upsertMessage (upsertPart st p) m) s)).sessions,
        ∀ em ∈ es.messages, p ∈ em.parts →
          em.message.id = p.messageID ∧ es.session.id = m.sessionID) := by
  obtain ⟨hsess, hmsg, hparts⟩ := hinv
  refine ⟨upsertSorted_self_mem _ p st.parts, ?_, ?_, ?_⟩
  · rw [partOccurrences_getState]
    apply List.sum_eq_zero
    intro v hv
    rcases List.mem_map.mp hv with ⟨s'', hs'', rfl⟩
    apply List.sum_eq_zero
    intro w hw
    rcases List.mem_map.mp hw with ⟨m', hm', rfl⟩
    have hm'mem : m' ∈ st.messages := (List.mem_filter.mp hm').1
    exact msgOcc_ne _ p m' fun hc => hnomsg m' hm'mem hc.symm
  · rw [partOccurrences_getState]
    have hmsg' : List.Pairwise (fun a b : Message => a.id < b.id)
        (upsertSorted (fun x => x.id) m st.messages) :=
      upsertSorted_sorted _ m hmsg
    apply sum_map_indicator (fun x : Session => x.id) _ s
    · exact upsertSorted_self_mem _ s st.sessions
    · exact pairwise_keys_nodup _ (upsertSorted_sorted _ s hsess)
    · intro s'' hs''
      by_cases hsid : s''.id = s.id
      · rw [if_pos hsid]
        apply sum_map_indicator (fun x : Message => x.id) _ m
        · apply List.mem_filter.mpr
          refine ⟨upsertSorted_self_mem _ m st.messages, ?_⟩
          show (m.sessionID == s''.id) = true
          rw [hsid, hs_id]
          exact beq_self_eq_true _
        · exact pairwise_keys_nodup _ (List.Pairwise.filter _ hmsg')
        · intro y hy
          exact msgOcc_upserted _ st.parts p m rfl hm_id hparts y
      · rw [if_neg hsid]
        apply List.sum_eq_zero
        intro w hw
        rcases List.mem_map.mp hw with ⟨m', hm', rfl⟩
        rcases List.mem_filter.mp hm' with ⟨hm'mem, hm'pred⟩
        have hm'ne : m'.id ≠ m.id := by
          intro hc
          rcases upsertSorted_mem_sorted _ m hmsg m' hm'mem with rfl | ⟨_, hne⟩
          · have hms : m'.sessionID = s''.id := by simpa using hm'pred
            exact hsid (by rw [← hms, ← hs_id])
          · exact hne hc
        rw [msgOcc_upserted _ st.parts p m rfl hm_id hparts m', if_neg hm'ne]
  · intro es hes em hem hpmem
    rcases List.mem_map.mp hes with ⟨s'', hs'', rfl⟩
    rcases List.mem_map.mp hem with ⟨m', hm', rfl⟩
    rcases List.mem_filter.mp hm' with ⟨hm'mem, hm'pred⟩
    have hp_pred : p.messageID = m'.id := by
      have := (List.mem_filter.mp hpmem).2
      simpa using this
    have hm'id : m'.id = m.id := by rw [← hp_pred, ← hm_id]
    refine ⟨hp_pred.symm, ?_⟩
    rcases upsertSorted_mem_sorted _ m hmsg m' hm'mem with rfl | ⟨_, hne⟩
    · have hms : m'.sessionID = s''.id := by simpa using hm'pred
      show s''.id = m'.sessionID
      rw [hms]
    · exact absurd hm'id hne

end World

namespace World

/-- C8: for a session whose most recent completed assistant message carries
token counts and a model context limit, `contextUsagePercent` equals
`round(100 * (input + output + reasoning + cache.read + cache.write) /
limits.context, 2)` with each undefined token field contributing 0; it is 0
for a session with no completed assistant message; and every enriched session
`getState` returns carries exactly this derived value. -/
theorem context_usage (st : StoreState) (s : Session) (m : Message)
    (tk : Tokens) (lim : ModelLimits)
    (hm : lastCompletedAssistant (sessionMessages st s) = some m)
    (htk : m.tokens = some tk)
    (hlim : (m.model.bind fun md => md.limits) = some lim) :
    tokenSum tk =
        tk.input + tk.output + tk.reasoning.getD 0 +
          ((tk.cache.map fun c => c.read + c.write).getD 0) ∧
      (enrichSession st s).contextUsagePercent =
        round2 (100 * (tokenSum tk : ℚ) / (lim.context : ℚ)) ∧
      (∀ s', lastCompletedAssistant (sessionMessages st s') = none →
        (enrichSession st s').contextUsagePercent = 0) ∧
      (∀ es ∈ (getState st).sessions,
        es.contextUsagePercent = contextUsagePercent (sessionMessages st es.session)) := by
  refine ⟨?_, ?_, ?_, ?_⟩
  · cases hc : tk.cache <;> simp [tokenSum, hc]
  · have h1 : (enrichSession st s).contextUsagePercent =
        contextUsagePercent (sessionMessages st s) := rfl
    rw [h1]
    unfold contextUsagePercent
    rw [hm]
    simp only [htk, hlim]
    congr 1
    ring
  · intro s' hs'
    have h1 : (enrichSession st s').contextUsagePercent =
        contextUsagePercent (sessionMessages st s') := rfl
    rw [h1]
    unfold contextUsagePercent
    rw [hs']
  · intro es hes
    rcases List.mem_map.mp hes with ⟨s'', hs'', rfl⟩
    rfl

end World

namespace World

/-! ## Event routing

The embedding of `routeEventToStore` from `world/merged-stream.ts` and of
`WorldSSE.handleEvent` from `world/sse.ts`. Dynamically-typed payloads are
embedded as a tagged union; the JavaScript truthiness guard on `id` /
`sessionID` fields becomes a non-empty-string test.
-/

/-- Payload of a source event (`event.data` / `event.properties`). -/
inductive EventData where
  | session (s : Session)
  | message (m : Message)
  | part (p : Part)
  | wrappedPart (p : Option Part)
  | status (sessionID : Option String) (status : Option SessionStatus)
  | other
deriving DecidableEq, Repr

/-- The `SourceEvent` shape of `world/event-source.ts`: source tag, type and data. -/
structure SourceEvent where
  source : String
  type : String
  data : EventData
deriving DecidableEq, Repr

/-- The `routeEventToStore` function of `world/merged-stream.ts`: the total switch on
`type`, including the implicit running-status signal on message and part
events and the wrapped `message.part.updated` form. -/
def routeEventToStore (event : SourceEvent) (store : StoreState) : StoreState :=
  if event.type = "session.created" ∨ event.type = "session.updated" then
    match event.data with
    | .session s => if s.id ≠ "" then upsertSession store s else store
    | _ => store
  else if event.type = "message.created" ∨ event.type = "message.updated" then
    match event.data with
    | .message m =>
      if m.id ≠ "" then
        let st1 := upsertMessage store m
        if m.sessionID ≠ "" then updateStatus st1 m.sessionID .running else st1
      else store
    | _ => store
  else if event.type = "part.created" ∨ event.type = "part.updated" ∨
      event.type = "message.part.updated" then
    let partData : Option Part :=
      if event.type = "message.part.updated" then
        match event.data with
        | .wrappedPart p => p
        | _ => none
      else
        match event.data with
        | .part p => some p
        | _ => none
    match partData with
    | some p =>
      if p.id ≠ "" then
        let st1 := upsertPart store p
        if p.sessionID ≠ "" then updateStatus st1 p.sessionID .running else st1
      else store
    | none => store
  else if event.type = "session.status" then
    match event.data with
    | .status (some sid) (some stt) =>
      if sid ≠ "" then updateStatus store sid stt else store
    | _ => store
  else store

/-- The `WorldSSE.handleEvent` method of `world/sse.ts`: the SSE-side switch — it
performs only the upsert for message and part events (no implicit running
status) and has no wrapped-part case. -/
def handleEvent (store : StoreState) (type : String) (props : EventData) :
    StoreState :=
  if type = "session.created" ∨ type = "session.updated" then
    match props with
    | .session s => if s.id ≠ "" then upsertSession store s else store
    | _ => store
  else if type = "message.created" ∨ type = "message.updated" then
    match props with
    | .message m => if m.id ≠ "" then upsertMessage store m else store
    | _ => store
  else if type = "part.created" ∨ type = "part.updated" then
    match props with
    | .part p => if p.id ≠ "" then upsertPart store p else store
    | _ => store
  else if type = "session.status" then
    match props with
    | .status (some sid) (some stt) =>
      if sid ≠ "" then updateStatus store sid stt else store
    | _ => store
  else store

/-- Concrete assistant message for the router counterexample. -/
def cexRouteMsg : Message :=
  { id := "msg-1", sessionID := "ses-1", role := "assistant" }

/-- C5 counterexample: a `message.created` event routed through
`WorldSSE.handleEvent` performs the upsert but records no running status —
the status map stays empty — while the merged-stream router records
`(ses-1, running)`. The claim's implicit-running clause is false on the
`handleEvent` path named in its sources. -/
theorem route_implicit_running_cex :
    (handleEvent emptyStore "message.created"
        (EventData.message cexRouteMsg)).statusMap = [] ∧
      (handleEvent emptyStore "message.created"
        (EventData.message cexRouteMsg)).messages = [cexRouteMsg] ∧
      (routeEventToStore
        { source := "sse", type := "message.created",
          data := EventData.message cexRouteMsg } emptyStore).statusMap =
        [("ses-1", SessionStatus.running)] := by
  refine ⟨by decide, by decide, by decide⟩

/-- C5 (amended): in the merged-stream router `routeEventToStore`, every
`message.created` / `message.updated` event with an id is applied via
`upsertMessage` plus the implicit `updateStatus(sessionID, running)` when the
payload carries a session id, and every `part.created` / `part.updated` /
wrapped `message.part.updated` event with an id via `upsertPart` plus the
same running signal; the `WorldSSE.handleEvent` path performs only the
upsert, with no implicit running status and no wrapped-part case. -/
theorem route_events (store : StoreState) (src : String) (m : Message)
    (p : Part) (hm : m.id ≠ "") (hms : m.sessionID ≠ "") (hp : p.id ≠ "")
    (hps : p.sessionID ≠ "") :
    routeEventToStore ⟨src, "message.created", EventData.message m⟩ store =
        updateStatus (upsertMessage store m) m.sessionID .running ∧
      routeEventToStore ⟨src, "message.updated", EventData.message m⟩ store =
        updateStatus (upsertMessage store m) m.sessionID .running ∧
      routeEventToStore ⟨src, "part.created", EventData.part p⟩ store =
        updateStatus (upsertPart store p) p.sessionID .running ∧
      routeEventToStore ⟨src, "part.updated", EventData.part p⟩ store =
        updateStatus (upsertPart store p) p.sessionID .running ∧
      routeEventToStore ⟨src, "message.part.updated",
          EventData.wrappedPart (some p)⟩ store =
        updateStatus (upsertPart store p) p.sessionID .running ∧
      handleEvent store "message.created" (EventData.message m) =
        upsertMessage store m ∧
      handleEvent store "part.created" (EventData.part p) =
        upsertPart store p ∧
      handleEvent store "message.part.updated" (EventData.wrappedPart (some p)) =
        store := by
  refine ⟨?_, ?_, ?_, ?_, ?_, ?_, ?_, ?_⟩ <;>
    simp [routeEventToStore, handleEvent, hm, hms, hp, hps]

end World

namespace World

/-! ## Merged stream

The embedding of the availability probe and the stream merge of
`createMergedWorldStream` in `world/merged-stream.ts`. `Stream.mergeAll`
interleaves the available sources nondeterministically; the merge is embedded
with an explicit arrival schedule, quantified over in the theorems.
-/

/-- Outcome of a source's `available()` effect: a boolean, a typed error, or
a defect (a thrown exception). -/
inductive AvailOutcome where
  | ok (b : Bool)
  | typedError (msg : String)
  | defect (msg : String)
deriving DecidableEq, Repr

/-- An auxiliary event source: its tag, what its `available()` probe does,
and the events its `stream()` yields. -/
structure EventSource where
  tag : String
  avail : AvailOutcome
  events : List SourceEvent
deriving DecidableEq, Repr

/-- The availability check of `createMergedWorldStream`:
`Effect.catchAllDefect` then `Effect.catchAll` turn both defects and typed
errors into `isAvailable = false`; nothing propagates. -/
def checkAvailability (s : EventSource) : Bool :=
  match s.avail with
  | .ok b => b
  | .typedError _ => false
  | .defect _ => false

/-- Embedding of `results.filter(r => r.isAvailable).map(r => r.source)`. -/
def availableSources (sources : List EventSource) : List EventSource :=
  sources.filter checkAvailability

/-- One-step-at-a-time embedding of `Stream.mergeAll`: the schedule picks
which stream emits next; exhausted or out-of-range picks are skipped. -/
def mergeRun : List (List SourceEvent) → List Nat → List SourceEvent
  | _, [] => []
  | streams, i :: rest =>
    match streams.get? i with
    | some (x :: xs) => x :: mergeRun (streams.set i xs) rest
    | _ => mergeRun streams rest

/-- Residual stream contents after running a schedule. -/
def mergeResidual : List (List SourceEvent) → List Nat → List (List SourceEvent)
  | streams, [] => streams
  | streams, i :: rest =>
    match streams.get? i with
    | some (_ :: xs) => mergeResidual (streams.set i xs) rest
    | _ => mergeResidual streams rest

/-- The merged stream of `createMergedWorldStream`: probe availability,
filter, return the empty stream with no available source, else merge. -/
def streamEvents (sources : List EventSource) (sched : List Nat) :
    List SourceEvent :=
  let avail := availableSources sources
  if avail.length = 0 then []
  else mergeRun (avail.map fun s => s.events) sched

theorem join_set_cons {α : Type} :
    ∀ (streams : List (List α)) (i : Nat) (x : α) (xs : List α),
      streams.get? i = some (x :: xs) →
      streams.flatten.Perm (x :: (streams.set i xs).flatten) := by
  intro streams
  induction streams with
  | nil =>
    intro i x xs hget
    simp at hget
  | cons h t ih =>
    intro i x xs hget
    cases i with
    | zero =>
      have hh : h = x :: xs := by
        simpa using hget
      subst hh
      simp
    | succ j =>
      have hget' : t.get? j = some (x :: xs) := by
        simpa using hget
      have h1 := ih j x xs hget'
      have h2 : (h :: t).flatten = h ++ t.flatten := rfl
      have h3 : ((h :: t).set (j + 1) xs).flatten =
          h ++ (t.set j xs).flatten := rfl
      rw [h2, h3]
      have h4 : (h ++ t.flatten).Perm (h ++ x :: (t.set j xs).flatten) :=
        List.Perm.append_left h h1
      have h5 : (h ++ x :: (t.set j xs).flatten).Perm
          (x :: (h ++ (t.set j xs).flatten)) := List.perm_middle
      exact h4.trans h5

theorem mergeRun_perm (sched : List Nat) :
    ∀ streams : List (List SourceEvent),
      (mergeRun streams sched ++ (mergeResidual streams sched).flatten).Perm
        streams.flatten := by
  induction sched with
  | nil =>
    intro streams
    simp [mergeRun, mergeResidual]
  | cons i rest ih =>
    intro streams
    cases hget : streams.get? i with
    | none =>
      simp only [mergeRun, mergeResidual, hget]
      exact ih streams
    | some l =>
      cases l with
      | nil =>
        simp only [mergeRun, mergeResidual, hget]
        exact ih streams
      | cons x xs =>
        simp only [mergeRun, mergeResidual, hget, List.cons_append]
        have h1 := ih (streams.set i xs)
        have h2 := join_set_cons streams i x xs hget
        exact (List.Perm.cons x h1).trans h2.symm

/-- C7: the merged stream consists of exactly the events of the sources whose
availability probe reports true — sources probing false, failing with a typed
error, or dying with a defect are excluded, never propagating a failure — and
with zero available sources the merge is the empty stream. Quantified over
every complete arrival schedule of `Stream.mergeAll`. -/
theorem merged_stream_events (sources : List EventSource) (sched : List Nat)
    (hcomplete : ∀ l ∈ mergeResidual
      ((availableSources sources).map fun s => s.events) sched, l = []) :
    (streamEvents sources sched).Perm
        ((availableSources sources).map fun s => s.events).flatten ∧
      (∀ s ∈ sources, checkAvailability s = false → s ∉ availableSources sources) ∧
      (availableSources sources = [] → streamEvents sources sched = []) := by
  refine ⟨?_, ?_, ?_⟩
  · by_cases hz : (availableSources sources).length = 0
    · have : availableSources sources = [] := List.length_eq_zero.mp hz
      simp [streamEvents, hz, this]
    · have hres : (mergeResidual
          ((availableSources sources).map fun s => s.events) sched).flatten = [] := by
        apply List.flatten_eq_nil_iff.mpr
        exact hcomplete
      have := mergeRun_perm sched ((availableSources sources).map fun s => s.events)
      rw [hres, List.append_nil] at this
      simpa [streamEvents, hz] using this
  · intro s hs hfalse
    intro hc
    have := (List.mem_filter.mp hc).2
    rw [hfalse] at this
    exact Bool.noConfusion this
  · intro hempty
    simp [streamEvents, hempty]

end World

namespace World

/-! ## Cursor store

The embedding of `makeCursorStore` from `world/cursor-store.ts`: the
`cursors` table keyed uniquely by `project_key`, the `INSERT … ON
CONFLICT(project_key) DO UPDATE` upsert of `saveCursor`, the
`SELECT … WHERE project_key = ?` of `loadCursor`, and the
`Effect.tryPromise` wrappers that surface I/O failures as typed errors.
-/

/-- The `StreamCursor` shape of `world/cursor.ts`. -/
structure StreamCursor where
  projectKey : String
  offset : String
  timestamp : Nat
deriving DecidableEq, Repr

/-- One row of the `cursors` table. -/
structure CursorRow where
  projectKey : String
  offset : String
  timestamp : Nat
  updatedAt : Nat
deriving DecidableEq, Repr

/-- The `saveCursor` upsert: update the row with the key in place, else
append a fresh row; `updated_at = unixepoch()` is the `now` argument. -/
def saveCursorRows (now : Nat) (c : StreamCursor) :
    List CursorRow → List CursorRow
  | [] => [{ projectKey := c.projectKey, offset := c.offset,
             timestamp := c.timestamp, updatedAt := now }]
  | r :: rs =>
    if r.projectKey = c.projectKey then
      { projectKey := r.projectKey, offset := c.offset,
        timestamp := c.timestamp, updatedAt := now } :: rs
    else r :: saveCursorRows now c rs

/-- The `loadCursor` select: first row with the key, null if absent. -/
def loadCursorRows (key : String) (db : List CursorRow) :
    Option StreamCursor :=
  (db.find? fun r => r.projectKey == key).map fun r =>
    { projectKey := r.projectKey, offset := r.offset, timestamp := r.timestamp }

/-- The `saveCursor` operation with its `Effect.tryPromise` wrapper: an underlying I/O
failure surfaces as a typed error to the caller, never absorbed. -/
def saveCursor (ioError : Option String) (now : Nat) (c : StreamCursor)
    (db : List CursorRow) : Except String (List CursorRow) :=
  match ioError with
  | some e => .error ("Failed to save cursor: " ++ e)
  | none => .ok (saveCursorRows now c db)

/-- The `loadCursor` operation with its `Effect.tryPromise` wrapper. -/
def loadCursor (ioError : Option String) (key : String)
    (db : List CursorRow) : Except String (Option StreamCursor) :=
  match ioError with
  | some e => .error ("Failed to load cursor: " ++ e)
  | none => .ok (loadCursorRows key db)

theorem loadCursorRows_save (now : Nat) (c : StreamCursor) :
    ∀ db : List CursorRow,
      loadCursorRows c.projectKey (saveCursorRows now c db) = some c := by
  intro db
  induction db with
  | nil =>
    simp [saveCursorRows, loadCursorRows, List.find?]
  | cons r rs ih =>
    by_cases h : r.projectKey = c.projectKey
    · simp [saveCursorRows, h, loadCursorRows, List.find?]
    · simp only [saveCursorRows, if_neg h, loadCursorRows, List.find?_cons]
      have : (r.projectKey == c.projectKey) = false := by
        exact beq_false_of_ne h
      rw [this]
      exact ih

/-- C9: after `saveCursor(c)` succeeds, `loadCursor(c.projectKey)` returns a
cursor equal to `c`; a second save with the same key replaces the stored
value in place (the table grows by no row); loading a never-saved key returns
null; and an I/O failure in either operation is surfaced as a failed result,
not absorbed. -/
theorem cursor_round_trip (now now' : Nat) (c c' : StreamCursor)
    (db : List CursorRow) (key ioMsg : String)
    (hkey : c'.projectKey = c.projectKey) :
    loadCursorRows c.projectKey (saveCursorRows now c db) = some c ∧
      loadCursorRows c'.projectKey
          (saveCursorRows now' c' (saveCursorRows now c db)) = some c' ∧
      (saveCursorRows now' c' (saveCursorRows now c db)).length =
        (saveCursorRows now c db).length ∧
      loadCursorRows key [] = none ∧
      saveCursor (some ioMsg) now c db =
        .error ("Failed to save cursor: " ++ ioMsg) ∧
      loadCursor (some ioMsg) key db =
        .error ("Failed to load cursor: " ++ ioMsg) ∧
      saveCursor none now c db = .ok (saveCursorRows now c db) ∧
      loadCursor none key db = .ok (loadCursorRows key db) := by
  refine ⟨loadCursorRows_save now c db, loadCursorRows_save now' c' _, ?_,
    rfl, rfl, rfl, rfl, rfl⟩
  have hlen : ∀ (n : Nat) (cc : StreamCursor) (db' : List CursorRow),
      cc.projectKey ∈ db'.map (fun r => r.projectKey) →
      (saveCursorRows n cc db').length = db'.length := by
    intro n cc db'
    induction db' with
    | nil => intro h; simp at h
    | cons r rs ih =>
      intro h
      by_cases hr : r.projectKey = cc.projectKey
      · simp [saveCursorRows, hr]
      · simp only [List.map_cons, List.mem_cons] at h
        rcases h with h | h
        · exact absurd h.symm hr
        · simp only [saveCursorRows, if_neg hr, List.length_cons]
          rw [ih h]
  apply hlen
  rw [hkey]
  have : ∀ (n : Nat) (cc : StreamCursor) (db' : List CursorRow),
      cc.projectKey ∈ (saveCursorRows n cc db').map fun r => r.projectKey := by
    intro n cc db'
    induction db' with
    | nil => simp [saveCursorRows]
    | cons r rs ih =>
      by_cases hr : r.projectKey = cc.projectKey
      · simp [saveCursorRows, hr]
      · simp only [saveCursorRows, if_neg hr, List.map_cons, List.mem_cons]
        exact Or.inr ih
  exact this now c db

end World

namespace World

/-! ## Concrete witnesses -/

def wSessA : Session :=
  { id := "ses-a", title := "A", directory := "/w", time := { created := 1, updated := 1 } }

def wSessB : Session :=
  { id := "ses-b", title := "B", directory := "/w", time := { created := 2, updated := 2 } }

def wMsg1 : Message :=
  { id := "msg-1", sessionID := "ses-a", role := "user",
    time := some { created := 1 } }

def wPart1 : Part :=
  { id := "part-1", sessionID := "ses-a", messageID := "msg-1", type := "text",
    content := some "Hello" }

def wOps : List StoreOp :=
  [.sess wSessA, .msg wMsg1, .sess wSessB, .prt wPart1]

def wOpsPerm : List StoreOp :=
  [.prt wPart1, .sess wSessB, .sess wSessA, .msg wMsg1]

theorem upsert_order_independence_witness :
    wOps.Perm wOpsPerm ∧
      getState (applyOps emptyStore wOpsPerm) =
        getState
          (setParts
            (setMessages (setSessions emptyStore (opsSessions wOps))
              (opsMessages wOps))
            (opsParts wOps)) :=
  ⟨by decide,
    upsert_order_independence wOps wOpsPerm (by decide) (by decide) (by decide)
      (by decide)⟩

def batchWitnessEnv : StreamEnv :=
  { servers := [{ directory := "/w", sessions := [wSessA],
                  statusEntries := [("ses-a", "running")] }],
    live := [], now := 7 }

theorem catchUp_batch_shape_witness :
    42 + catchUpCount batchWitnessEnv < 10 ^ 10 ∧
      List.Pairwise (fun a b => a.offset < b.offset)
        (catchUpEvents batchWitnessEnv (some (offsetString 42))).events :=
  ⟨by decide, (catchUp_batch_shape batchWitnessEnv 42 (by decide)).1⟩

def wRoutePart : Part :=
  { id := "part-r", sessionID := "ses-r", messageID := "msg-r", type := "text" }

theorem route_events_witness :
    routeEventToStore ⟨"sse", "message.created", EventData.message cexRouteMsg⟩
        emptyStore =
      updateStatus (upsertMessage emptyStore cexRouteMsg)
        cexRouteMsg.sessionID .running :=
  (route_events emptyStore "sse" cexRouteMsg wRoutePart (by decide) (by decide)
    (by decide) (by decide)).1

def wC6Part : Part :=
  { id := "part-x", sessionID := "ses-x", messageID := "msg-x", type := "text" }

def wC6Msg : Message :=
  { id := "msg-x", sessionID := "ses-x", role := "assistant" }

def wC6Sess : Session :=
  { id := "ses-x", title := "X", directory := "/w",
    time := { created := 3, updated := 3 } }

theorem part_before_parents_witness :
    partOccurrences (getState (upsertPart emptyStore wC6Part)) wC6Part = 0 ∧
      partOccurrences
        (getState
          (upsertSession (upsertMessage (upsertPart emptyStore wC6Part) wC6Msg)
            wC6Sess)) wC6Part = 1 :=
  ⟨(part_before_parents emptyStore wC6Part wC6Msg wC6Sess
      ⟨List.Pairwise.nil, List.Pairwise.nil, List.Pairwise.nil⟩ rfl rfl
      (by simp [emptyStore])).2.1,
    (part_before_parents emptyStore wC6Part wC6Msg wC6Sess
      ⟨List.Pairwise.nil, List.Pairwise.nil, List.Pairwise.nil⟩ rfl rfl
      (by simp [emptyStore])).2.2.1⟩

def wMergeSources : List EventSource :=
  [{ tag := "swarm-db", avail := .defect "db unreachable",
     events := [⟨"swarm-db", "memory_stored", EventData.other⟩] },
   { tag := "sse", avail := .ok true,
     events := [⟨"sse", "session.created", EventData.session wSessA⟩,
                ⟨"sse", "session.status", EventData.status (some "ses-a")
                  (some SessionStatus.running)⟩] }]

theorem merged_stream_events_witness :
    (∀ l ∈ mergeResidual
        ((availableSources wMergeSources).map fun s => s.events) [0, 0], l = []) ∧
      (streamEvents wMergeSources [0, 0]).Perm
        ((availableSources wMergeSources).map fun s => s.events).flatten :=
  ⟨by decide, (merged_stream_events wMergeSources [0, 0] (by decide)).1⟩

def w8Tk : Tokens :=
  { input := 5000, output := 500, reasoning := some 1000,
    cache := some { read := 1000, write := 500 } }

def w8Lim : ModelLimits := { context := 200000, output := 16384 }

def w8Msg : Message :=
  { id := "msg-8", sessionID := "ses-8", role := "assistant",
    time := some { created := 10, completed := some 20 },
    tokens := some w8Tk,
    model := some { name := "claude-4-sonnet", limits := some w8Lim } }

def w8Sess : Session :=
  { id := "ses-8", title := "T", directory := "/w",
    time := { created := 10, updated := 10 } }

def w8Store : StoreState :=
  setMessages (setSessions emptyStore [w8Sess]) [w8Msg]

theorem context_usage_witness :
    lastCompletedAssistant (sessionMessages w8Store w8Sess) = some w8Msg ∧
      (enrichSession w8Store w8Sess).contextUsagePercent =
        round2 (100 * (tokenSum w8Tk : ℚ) / (w8Lim.context : ℚ)) :=
  ⟨by decide,
    (context_usage w8Store w8Sess w8Msg w8Tk w8Lim (by decide) rfl rfl).2.1⟩

def wCursor1 : StreamCursor :=
  { projectKey := "/proj", offset := "0000000042", timestamp := 5 }

def wCursor2 : StreamCursor :=
  { projectKey := "/proj", offset := "0000000043", timestamp := 6 }

theorem cursor_round_trip_witness :
    wCursor2.projectKey = wCursor1.projectKey ∧
      loadCursorRows wCursor1.projectKey (saveCursorRows 100 wCursor1 []) =
        some wCursor1 :=
  ⟨rfl, (cursor_round_trip 100 101 wCursor1 wCursor2 [] "/other" "io down"
    rfl).1⟩

end World
